import Mathlib

/-!
Verification of the clinical-NLP backend (`main.py`): text normalization,
regex-based feature extraction, guideline threshold parsing, the rule engine,
and the analyze orchestration, shallowly embedded over `List Char` / `String`.

Regex scanning is embedded as deterministic left-to-right state machines that
reproduce Python `re` leftmost-match semantics for the concrete patterns in the
source (each pattern's greedy/lazy quantifiers are deterministic against its
following context, so no general backtracking engine is needed).  Python floats
are modelled as rationals (the extracted values are exact decimal literals),
and Python `\s` / `str.strip` whitespace is modelled by the ASCII whitespace
class.
-/

namespace ClinicalNLP

/-- Whitespace characters of the regex class `\s` (ASCII fragment). -/
def isWsC (c : Char) : Bool :=
  c = ' ' || c = '\t' || c = '\n' || c = '\r' || c = '\x0b' || c = '\x0c'

/-- Decimal digit, the regex class `\d` / `[0-9]`. -/
def isDigitC (c : Char) : Bool :=
  48 ≤ c.toNat && c.toNat ≤ 57

/-- ASCII letter, the regex class `[A-Za-z]`. -/
def isAlphaC (c : Char) : Bool :=
  (97 ≤ c.toNat && c.toNat ≤ 122) || (65 ≤ c.toNat && c.toNat ≤ 90)

/-- Word character, the regex class `\w` (ASCII fragment), used for `\b`. -/
def isWordC (c : Char) : Bool :=
  isAlphaC c || isDigitC c || c = '_'

/-- Case-insensitive character comparison (`re.IGNORECASE`, ASCII). -/
def ciEq (c d : Char) : Bool := c.toLower = d.toLower

/-- Step 1 of `normalize_text`: `re.sub(r"\s+", " ", text)`.  The flag records
whether the previous character was whitespace (already emitted as a space). -/
def collapseWs : Bool → List Char → List Char
  | _, [] => []
  | prevWs, c :: cs =>
    if isWsC c then
      if prevWs then collapseWs true cs
      else ' ' :: collapseWs true cs
    else c :: collapseWs false cs

def step1 (l : List Char) : List Char := collapseWs false l

/-- Leftmost-match attempt of `(\\d)\\s*\\.\\s*(\\d)` anchored at the head of the
text: a digit, greedy whitespace, a period, greedy whitespace, a digit.  The
greedy `\\s*` pieces are deterministic because `.` and digits are not
whitespace.  Returns the two captured digits and the text after the match. -/
def matchDPD : List Char → Option (Char × Char × List Char)
  | [] => none
  | c :: cs =>
    if isDigitC c then
      match cs.dropWhile isWsC with
      | '.' :: r2 =>
        match r2.dropWhile isWsC with
        | d2 :: tail => if isDigitC d2 then some (c, d2, tail) else none
        | [] => none
      | _ => none
    else none

/-- Step 2 of `normalize_text`, `re.sub(r"(\\d)\\s*\\.\\s*(\\d)", r"\\1.\\2", text)`,
as the standard sub scan: at each position attempt a match; on success emit
the replacement `\\1.\\2` and resume after the match, otherwise emit one
character.  (Positions inside a failed attempt are whitespace or `.` and can
never start a match, so resuming at the next character is faithful.) -/
def step2 : List Char → List Char
  | [] => []
  | c :: cs =>
    match h : matchDPD (c :: cs) with
    | some (d, d2, tail) => d :: '.' :: d2 :: step2 tail
    | none => c :: step2 cs
termination_by l => l.length
decreasing_by
  · simp only [matchDPD] at h
    split at h
    · split at h
      · rename_i r2 heq1
        split at h
        · rename_i d2x tailx heq2
          split at h
          · cases h
            have h1 : tail.length + 1 = (r2.dropWhile isWsC).length := by rw [heq2]; rfl
            have h2 : (r2.dropWhile isWsC).length ≤ r2.length :=
              (List.dropWhile_sublist _).length_le
            have h3 : r2.length + 1 = (cs.dropWhile isWsC).length := by rw [heq1]; rfl
            have h4 : (cs.dropWhile isWsC).length ≤ cs.length :=
              (List.dropWhile_sublist _).length_le
            simp only [List.length_cons]
            omega
          · cases h
        · cases h
      · cases h
    · cases h
  · simp only [List.length_cons]
    omega

/-- Scanner state for `re.sub(r"\b([A-Za-z]+)\.\s", r"\1 ", text)`:
`base pw` = scanning, `pw` = previous character is a word character (for `\b`);
`run acc` = collecting a letter run (reversed) entered at a word boundary;
`dot acc` = letter run followed by `'.'`, awaiting a whitespace character. -/
inductive St3 where
  | base : Bool → St3
  | run : List Char → St3
  | dot : List Char → St3
deriving DecidableEq

/-- Step 3 of `normalize_text` as a left-to-right scan; a match `L.w` (with
`w` whitespace) is replaced by `L` and a space. -/
def go3 : St3 → List Char → List Char
  | .base _, [] => []
  | .base pw, c :: cs =>
    if !pw && isAlphaC c then go3 (.run [c]) cs
    else c :: go3 (.base (isWordC c)) cs
  | .run acc, [] => acc.reverse
  | .run acc, c :: cs =>
    if isAlphaC c then go3 (.run (c :: acc)) cs
    else if c = '.' then go3 (.dot acc) cs
    else acc.reverse ++ c :: go3 (.base (isWordC c)) cs
  | .dot acc, [] => acc.reverse ++ ['.']
  | .dot acc, c :: cs =>
    if isWsC c then acc.reverse ++ ' ' :: go3 (.base false) cs
    else if isAlphaC c then acc.reverse ++ '.' :: go3 (.run [c]) cs
    else acc.reverse ++ '.' :: c :: go3 (.base (isWordC c)) cs

def step3 (l : List Char) : List Char := go3 (.base false) l

/-- Python `str.replace` for a pattern whose characters are pairwise distinct
(so after a mismatch only the current character can restart a match).
`pend` is the consumed pattern part (reversed), `rest` the remaining pattern. -/
def replGo (p0 : Char) (pt : List Char) (rep : List Char) :
    List Char → List Char → List Char → List Char
  | pend, _, [] => pend.reverse
  | pend, r :: rs, c :: cs =>
    if c = r then
      match rs with
      | [] => rep ++ replGo p0 pt rep [] (p0 :: pt) cs
      | _ :: _ => replGo p0 pt rep (c :: pend) rs cs
    else if c = p0 then pend.reverse ++ replGo p0 pt rep [c] pt cs
    else pend.reverse ++ c :: replGo p0 pt rep [] (p0 :: pt) cs
  | pend, [], c :: cs => pend.reverse ++ c :: replGo p0 pt rep [] (p0 :: pt) cs

/-- `text.replace("SpO 2", "SpO2")`. -/
def replSpO2 (l : List Char) : List Char :=
  replGo 'S' ['p', 'O', ' ', '2'] "SpO2".data [] "SpO 2".data l

/-- `text.replace("O 2", "O2")`. -/
def replO2 (l : List Char) : List Char :=
  replGo 'O' [' ', '2'] "O2".data [] "O 2".data l

/-- Python `str.strip()` over the modelled whitespace class. -/
def stripWs (l : List Char) : List Char :=
  ((l.dropWhile (fun c => isWsC c)).reverse.dropWhile (fun c => isWsC c)).reverse

/-- `normalize_text` from `main.py`: collapse whitespace, join split decimal
numbers, strip a period after a bare word, canonicalize "SpO 2"/"O 2", trim. -/
def normalize_text (s : String) : String :=
  String.mk (stripWs (replO2 (replSpO2 (step3 (step2 (step1 s.data))))))

/-- Match a case-insensitive literal at the head of the text; return the rest. -/
def dropCi : List Char → List Char → Option (List Char)
  | [], l => some l
  | _ :: _, [] => none
  | p :: ps, c :: cs => if ciEq c p then dropCi ps cs else none

/-- Does the text start with a word character? (`\b` fails right before it
after a word character, and `\b` after a word requires this to be false.) -/
def wordStart : List Char → Bool
  | [] => false
  | c :: _ => isWordC c

/-- Regex fragment `[^0-9]{0,lim}` followed by a digit: skip at most `lim`
non-digits; succeed (returning the remaining text, which starts with a digit)
iff a digit appears within the budget. -/
def skipNonDigit : Nat → List Char → Option (List Char)
  | _, [] => none
  | n, c :: cs =>
    if isDigitC c then some (c :: cs)
    else
      match n with
      | 0 => none
      | m + 1 => skipNonDigit m cs

/-- Numeric value of a list of decimal digits. -/
def digitsToNat (l : List Char) : Nat :=
  l.foldl (fun a c => 10 * a + (c.toNat - 48)) 0

/-- Value of the capture `([0-9]+(?:\.[0-9]+)?)` starting at a digit:
greedy integer digits, then an optional `.` followed by greedy digits.
The decimal `D1.D2` denotes `(D1·10^|D2| + D2) / 10^|D2|`, built with `mkRat`
(kernel-reducible, unlike the field operations on `ℚ`). -/
def parseDecimalAt (l : List Char) : ℚ :=
  let d1 := l.takeWhile isDigitC
  match l.dropWhile isDigitC with
  | '.' :: c :: r2 =>
    if isDigitC c then
      let d2 := (c :: r2).takeWhile isDigitC
      mkRat (Int.ofNat (digitsToNat d1 * 10 ^ d2.length + digitsToNat d2)) (10 ^ d2.length)
    else mkRat (Int.ofNat (digitsToNat d1)) 1
  | _ => mkRat (Int.ofNat (digitsToNat d1)) 1

/-- Plausibility gate for integer extractors: keep a captured value only if it
lies in `[lo, hi]`; an out-of-range capture is discarded (not clamped). -/
def chkInt (lo hi : Int) : Option Int → Option Int
  | some v => if lo ≤ v && v ≤ hi then some v else none
  | none => none

/-- Plausibility gate for decimal extractors. -/
def chkRat (lo hi : ℚ) : Option ℚ → Option ℚ
  | some v => if lo ≤ v && v ≤ hi then some v else none
  | none => none

/-- Scanner state for `re.sub(r"S\s*P\s*O\s*2", "SpO2", text, re.IGNORECASE)`:
which of S, P, O has been seen, with the original pending characters
(reversed) for flushing on failure. -/
inductive StSpo where
  | base : StSpo
  | sawS : List Char → StSpo
  | sawP : List Char → StSpo
  | sawO : List Char → StSpo

def StSpo.flush : StSpo → List Char
  | .base => []
  | .sawS p => p.reverse
  | .sawP p => p.reverse
  | .sawO p => p.reverse

/-- The `S\s*P\s*O\s*2 → SpO2` substitution as a scan.  Only `s`/`S` can start
a match, and it never occurs later in the pattern, so after a mismatch only
the failing character itself can restart a match. -/
def goSpo : StSpo → List Char → List Char
  | .base, [] => []
  | .base, c :: cs =>
    if ciEq c 's' then goSpo (.sawS [c]) cs else c :: goSpo .base cs
  | .sawS p, [] => p.reverse
  | .sawS p, c :: cs =>
    if isWsC c then goSpo (.sawS (c :: p)) cs
    else if ciEq c 'p' then goSpo (.sawP (c :: p)) cs
    else if ciEq c 's' then p.reverse ++ goSpo (.sawS [c]) cs
    else p.reverse ++ c :: goSpo .base cs
  | .sawP p, [] => p.reverse
  | .sawP p, c :: cs =>
    if isWsC c then goSpo (.sawP (c :: p)) cs
    else if ciEq c 'o' then goSpo (.sawO (c :: p)) cs
    else if ciEq c 's' then p.reverse ++ goSpo (.sawS [c]) cs
    else p.reverse ++ c :: goSpo .base cs
  | .sawO p, [] => p.reverse
  | .sawO p, c :: cs =>
    if isWsC c then goSpo (.sawO (c :: p)) cs
    else if c = '2' then 'S' :: 'p' :: 'O' :: '2' :: goSpo .base cs
    else if ciEq c 's' then p.reverse ++ goSpo (.sawS [c]) cs
    else p.reverse ++ c :: goSpo .base cs

def spo2Sub (l : List Char) : List Char := goSpo .base l

/-- Case-insensitive `re.sub` of a literal pattern (here `CREATININE\.`) by a
literal replacement; the pattern's first character does not reoccur in it, so
after a mismatch only the failing character can restart a match.  `pend` holds
the matched original characters (reversed), `rest` the remaining pattern. -/
def ciReplGo (p0 : Char) (pt : List Char) (rep : List Char) :
    List Char → List Char → List Char → List Char
  | pend, _, [] => pend.reverse
  | pend, r :: rs, c :: cs =>
    if ciEq c r then
      match rs with
      | [] => rep ++ ciReplGo p0 pt rep [] (p0 :: pt) cs
      | _ :: _ => ciReplGo p0 pt rep (c :: pend) rs cs
    else if ciEq c p0 then pend.reverse ++ ciReplGo p0 pt rep [c] pt cs
    else pend.reverse ++ c :: ciReplGo p0 pt rep [] (p0 :: pt) cs
  | pend, [], c :: cs => pend.reverse ++ c :: ciReplGo p0 pt rep [] (p0 :: pt) cs

/-- `re.sub(r"CREATININE\.", "CREATININE", text, re.IGNORECASE)`. -/
def creatinineFix (l : List Char) : List Char :=
  ciReplGo 'c' "reatinine.".data "CREATININE".data [] "creatinine.".data l

/-- One alternative of o2-sat pattern 1:
`ALT[^0-9]{0,5}([0-9]{2,3})` at the current position (case-insensitive). -/
def tryAltNum (alt : List Char) (l : List Char) : Option Int :=
  match dropCi alt l with
  | none => none
  | some rest =>
    match skipNonDigit 5 rest with
    | none => none
    | some l2 =>
      let run := l2.takeWhile isDigitC
      if run.length ≥ 2 then some (Int.ofNat (digitsToNat (run.take 3))) else none

/-- `(?:SpO2|O2 sat|oxygen saturation)[^0-9]{0,5}([0-9]{2,3})` at one position. -/
def tryO2P1 (l : List Char) : Option Int :=
  match tryAltNum "spo2".data l with
  | some v => some v
  | none =>
    match tryAltNum "o2 sat".data l with
    | some v => some v
    | none => tryAltNum "oxygen saturation".data l

/-- Leftmost match of o2-sat pattern 1 (`re.search`). -/
def searchO2P1 : List Char → Option Int
  | [] => none
  | c :: cs =>
    match tryO2P1 (c :: cs) with
    | some v => some v
    | none => searchO2P1 cs

/-- `([0-9]{2,3})\s*%` at one position with `n` captured digits. -/
def tryDigitsPct (l : List Char) (n : Nat) : Option Int :=
  if (l.takeWhile isDigitC).length ≥ n then
    match (l.drop n).dropWhile isWsC with
    | '%' :: _ => some (Int.ofNat (digitsToNat (l.take n)))
    | _ => none
  else none

/-- `([0-9]{2,3})\s*%` at one position: greedy, three digits tried first. -/
def tryO2P2 (l : List Char) : Option Int :=
  match tryDigitsPct l 3 with
  | some v => some v
  | none => tryDigitsPct l 2

/-- Leftmost match of the bare-percent fallback pattern. -/
def searchO2P2 : List Char → Option Int
  | [] => none
  | c :: cs =>
    match tryO2P2 (c :: cs) with
    | some v => some v
    | none => searchO2P2 cs

/-- `extract_o2_sat` from `main.py`: normalize spaced "S P O 2", then try the
labelled pattern and the bare-percent fallback, each gated to 50–100. -/
def extract_o2_sat (text : String) : Option Int :=
  let t := spo2Sub text.data
  match chkInt 50 100 (searchO2P1 t) with
  | some v => some v
  | none => chkInt 50 100 (searchO2P2 t)

/-- `\bLABEL\b[^0-9]{0,lim}([0-9]+(?:\.[0-9]+)?)` at one position (the leading
`\b` is checked by the caller; the trailing `\b` is the `wordStart` test). -/
def tryLabelNum (label : List Char) (lim : Nat) (l : List Char) : Option ℚ :=
  match dropCi label l with
  | none => none
  | some rest =>
    if wordStart rest then none
    else
      match skipNonDigit lim rest with
      | some l2 => some (parseDecimalAt l2)
      | none => none

/-- Leftmost match of a `\b`-anchored label-plus-number pattern; `pw` tracks
whether the previous character is a word character. -/
def searchLabelNum (label : List Char) (lim : Nat) : Bool → List Char → Option ℚ
  | _, [] => none
  | pw, c :: cs =>
    match (if pw then none else tryLabelNum label lim (c :: cs)) with
    | some q => some q
    | none => searchLabelNum label lim (isWordC c) cs

/-- `extract_creatinine` from `main.py`: fix "CREATININE." then match the
labelled decimal, gated to 0.1–20. -/
def extract_creatinine (text : String) : Option ℚ :=
  let t := creatinineFix text.data
  chkRat (mkRat 1 10) 20 (searchLabelNum "creatinine".data 15 false t)

/-- `extract_troponin` from `main.py`: labelled decimal gated to 0–100. -/
def extract_troponin (text : String) : Option ℚ :=
  chkRat 0 100 (searchLabelNum "troponin".data 10 false text.data)

/-- Second group of `\b(\d{2,3})\s*/\s*(\d{2,3})\b` after the slash: text `r3`
starts after `\s*`; succeed iff three (preferred) or two digits followed by a
word boundary can be matched. -/
def sbpSecondOk (r3 : List Char) : Bool :=
  let run2 := (r3.takeWhile isDigitC).length
  (decide (run2 ≥ 3) && !wordStart (r3.drop 3)) ||
  (decide (run2 ≥ 2) && !wordStart (r3.drop 2))

/-- `\b(\d{2,3})\s*/\s*(\d{2,3})\b` at one position with `n` leading digits
(leading `\b` checked by the caller). -/
def trySbp1n (l : List Char) (n : Nat) : Option Int :=
  if (l.takeWhile isDigitC).length ≥ n then
    match (l.drop n).dropWhile isWsC with
    | '/' :: r2 =>
      if sbpSecondOk (r2.dropWhile isWsC) then some (Int.ofNat (digitsToNat (l.take n)))
      else none
    | _ => none
  else none

/-- Standard BP pattern at one position: greedy first group, 3 digits first. -/
def trySbp1 (l : List Char) : Option Int :=
  match trySbp1n l 3 with
  | some v => some v
  | none => trySbp1n l 2

/-- Leftmost match of the standard BP pattern. -/
def searchSbp1 : Bool → List Char → Option Int
  | _, [] => none
  | pw, c :: cs =>
    match (if pw then none else trySbp1 (c :: cs)) with
    | some v => some v
    | none => searchSbp1 (isWordC c) cs

/-- `(\d{2})\s*(\d)\s*/\s*(\d{2})` at one position (broken table form; the
captured value is the concatenation of the first two digit groups). -/
def trySbp2 (l : List Char) : Option Int :=
  match l with
  | a :: b :: r =>
    if isDigitC a && isDigitC b then
      match r.dropWhile isWsC with
      | d :: r2 =>
        if isDigitC d then
          match r2.dropWhile isWsC with
          | '/' :: r4 =>
            match r4.dropWhile isWsC with
            | x :: y :: _ =>
              if isDigitC x && isDigitC y then some (Int.ofNat (digitsToNat [a, b, d]))
              else none
            | _ => none
          | _ => none
        else none
      | [] => none
    else none
  | _ => none

/-- Leftmost match of the broken-table BP pattern (no `\b` anchors). -/
def searchSbp2 : List Char → Option Int
  | [] => none
  | c :: cs =>
    match trySbp2 (c :: cs) with
    | some v => some v
    | none => searchSbp2 cs

/-- `\bSBP[:\s]*?(\d{2,3})\b` at one position (leading `\b` checked by the
caller; the lazy class is equivalent to skipping the whole `[:\s]` run). -/
def trySbp3 (l : List Char) : Option Int :=
  match dropCi "sbp".data l with
  | none => none
  | some rest =>
    let r1 := rest.dropWhile (fun c => c = ':' || isWsC c)
    let run := (r1.takeWhile isDigitC).length
    if run ≥ 3 && !wordStart (r1.drop 3) then some (Int.ofNat (digitsToNat (r1.take 3)))
    else if run ≥ 2 && !wordStart (r1.drop 2) then some (Int.ofNat (digitsToNat (r1.take 2)))
    else none

/-- Leftmost match of the labelled SBP pattern. -/
def searchSbp3 : Bool → List Char → Option Int
  | _, [] => none
  | pw, c :: cs =>
    match (if pw then none else trySbp3 (c :: cs)) with
    | some v => some v
    | none => searchSbp3 (isWordC c) cs

/-- `extract_sbp` from `main.py`: three-stage cascade (N/N pair, broken table
form, explicit SBP label), each stage gated to 60–250; an out-of-range match
falls through to the next stage. -/
def extract_sbp (text : String) : Option Int :=
  match chkInt 60 250 (searchSbp1 false text.data) with
  | some v => some v
  | none =>
    match chkInt 60 250 (searchSbp2 text.data) with
    | some v => some v
    | none => chkInt 60 250 (searchSbp3 false text.data)

/-- One alternative of the guideline pattern:
`ALT[^\d]{0,20}(\d{2})` at the current position (case-insensitive). -/
def tryGuideAlt (alt : List Char) (l : List Char) : Option Int :=
  match dropCi alt l with
  | none => none
  | some rest =>
    match skipNonDigit 20 rest with
    | some (a :: b :: _) => if isDigitC b then some (Int.ofNat (digitsToNat [a, b])) else none
    | _ => none

/-- `(?:o2|saturation)[^\d]{0,20}(\d{2})` at one position. -/
def tryGuide (l : List Char) : Option Int :=
  match tryGuideAlt "o2".data l with
  | some v => some v
  | none => tryGuideAlt "saturation".data l

/-- Leftmost match of the guideline threshold pattern. -/
def searchGuide : List Char → Option Int
  | [] => none
  | c :: cs =>
    match tryGuide (c :: cs) with
    | some v => some v
    | none => searchGuide cs

/-- Greedy optional `[- ]?` followed by a continuation (regex tries the
consumed branch first; for a boolean result this is a disjunction). -/
def optDash (r : List Char) (k : List Char → Bool) : Bool :=
  match r with
  | c :: r2 => if c = '-' || c = ' ' then (k r2 || k r) else k r
  | [] => k r

/-- `[- ]?year[- ]?old` (case-insensitive) after the captured digits. -/
def yearOldAfter (rest : List Char) : Bool :=
  optDash rest fun r =>
    match dropCi "year".data r with
    | some r2 => optDash r2 fun r3 => (dropCi "old".data r3).isSome
    | none => false

/-- `(\d{2,3})[- ]?year[- ]?old` at one position, greedy digits. -/
def tryAge1 (l : List Char) : Option Int :=
  let run := (l.takeWhile isDigitC).length
  if run ≥ 3 && yearOldAfter (l.drop 3) then some (Int.ofNat (digitsToNat (l.take 3)))
  else if run ≥ 2 && yearOldAfter (l.drop 2) then some (Int.ofNat (digitsToNat (l.take 2)))
  else none

def searchAge1 : List Char → Option Int
  | [] => none
  | c :: cs =>
    match tryAge1 (c :: cs) with
    | some v => some v
    | none => searchAge1 cs

/-- `Age[:\s]+(\d{1,3})` at one position (case-insensitive). -/
def tryAge2 (l : List Char) : Option Int :=
  match dropCi "age".data l with
  | none => none
  | some rest =>
    match rest with
    | c :: _ =>
      if c = ':' || isWsC c then
        let r1 := rest.dropWhile (fun c => c = ':' || isWsC c)
        let run := (r1.takeWhile isDigitC).length
        if run ≥ 1 then some (Int.ofNat (digitsToNat (r1.take (min 3 run)))) else none
      else none
    | [] => none

def searchAge2 : List Char → Option Int
  | [] => none
  | c :: cs =>
    match tryAge2 (c :: cs) with
    | some v => some v
    | none => searchAge2 cs

/-- `extract_age` from `main.py` (no plausibility range is enforced). -/
def extract_age (text : String) : Option Int :=
  match searchAge1 text.data with
  | some v => some v
  | none => searchAge2 text.data

/-- Search for `\bWORD` (optionally also `WORD\b` when `endB` is true) in
already-lowercased text; `pw` tracks the word-character status of the
previous character. -/
def searchWordP (w : List Char) (endB : Bool) : Bool → List Char → Bool
  | _, [] => false
  | pw, c :: cs =>
    (!pw && (match dropCi w (c :: cs) with
             | some rest => !endB || !wordStart rest
             | none => false)) ||
    searchWordP w endB (isWordC c) cs

/-- Search for `\bWORDs?\b` (optional plural). -/
def searchOptS (w : List Char) : Bool → List Char → Bool
  | _, [] => false
  | pw, c :: cs =>
    (!pw && (match dropCi w (c :: cs) with
             | some ('s' :: r2) => !wordStart r2
             | some rest => !wordStart rest
             | none => false)) ||
    searchOptS w (isWordC c) cs

/-- First `\bWORD\b` occurrence; returns the text after the word. -/
def findWordRest (w : List Char) : Bool → List Char → Option (List Char)
  | _, [] => none
  | pw, c :: cs =>
    match (if pw then none
           else match dropCi w (c :: cs) with
                | some rest => if wordStart rest then none else some rest
                | none => none) with
    | some rest => some rest
    | none => findWordRest w (isWordC c) cs

/-- `\bA\b.*\bB...`: a `\b`-delimited occurrence of `A` followed later by `B`
(the `B` is `\b`-anchored at its start, and at its end iff `endB`).  The
non-newline restriction of `.` is immaterial for the normalized single-line
notes this runs on. -/
def searchThen (a b : List Char) (endB : Bool) (l : List Char) : Bool :=
  match findWordRest a false l with
  | some rest => searchWordP b endB true rest
  | none => false

/-- `\bLABEL\s*<\s*NUM\b` (e.g. `sbp < 90`). -/
def searchCmp (label num : List Char) : Bool → List Char → Bool
  | _, [] => false
  | pw, c :: cs =>
    (!pw && (match dropCi label (c :: cs) with
             | some rest =>
               match rest.dropWhile isWsC with
               | '<' :: r2 =>
                 match dropCi num (r2.dropWhile isWsC) with
                 | some r3 => !wordStart r3
                 | none => false
               | _ => false
             | none => false)) ||
    searchCmp label num (isWordC c) cs

def lowerL (l : List Char) : List Char := l.map Char.toLower

/-- `detect_pneumonia` from `main.py`: lowercase, then any of the fixed
keyword patterns. -/
def detect_pneumonia (text : String) : Bool :=
  let l := lowerL text.data
  searchWordP "pneumonia".data true false l ||
  searchOptS "infiltrate".data false l ||
  searchWordP "consolidation".data true false l ||
  searchWordP "opacity".data true false l ||
  searchWordP "lobar pneumonia".data true false l ||
  searchWordP "consistent with pneumonia".data true false l ||
  searchWordP "rll pneumonia".data true false l ||
  searchThen "right lower lobe".data "pneumonia".data true l

/-- `detect_iv_antibiotics` from `main.py`. -/
def detect_iv_antibiotics (text : String) : Bool :=
  let l := lowerL text.data
  searchThen "iv".data "antibiotic".data false l ||
  searchThen "intravenous".data "antibiotic".data false l ||
  searchWordP "ceftriaxone".data true false l ||
  searchWordP "vancomycin".data true false l ||
  searchWordP "zosyn".data true false l ||
  searchWordP "cefepime".data true false l ||
  searchWordP "piperacillin".data true false l ||
  searchWordP "meropenem".data true false l

/-- `detect_hemodynamic_instability_phrase` from `main.py`. -/
def detect_hemodynamic_instability_phrase (text : String) : Bool :=
  let l := lowerL text.data
  searchWordP "hypotension".data true false l ||
  searchWordP "hypotensive".data true false l ||
  searchWordP "hemodynamic instability".data true false l ||
  searchWordP "shock".data true false l ||
  searchWordP "unstable".data true false l ||
  searchCmp "sbp".data "90".data false l ||
  searchCmp "systolic".data "90".data false l ||
  searchCmp "map".data "65".data false l ||
  searchOptS "pressor".data false l ||
  searchWordP "norepinephrine".data true false l ||
  searchWordP "vasopressor".data true false l

/-- Extracted clinical features (`features` dict in `main.py`): each numeric
field is present or absent; Python floats are modelled as rationals. -/
structure FeatureSet where
  age : Option Int
  o2_sat : Option Int
  creatinine : Option ℚ
  troponin : Option ℚ
  sbp : Option Int
  pneumonia : Bool
  iv_antibiotics : Bool
  hemodynamic_phrase : Bool
deriving DecidableEq

/-- Rule thresholds (`rules` dict), defaults {90, 0.04, 1.5, 90}. -/
structure Rules where
  o2_sat_threshold : Int
  troponin_threshold : ℚ
  creatinine_threshold : ℚ
  sbp_threshold : Int
deriving DecidableEq

/-- One checklist entry produced by the rule engine. -/
structure CriterionResult where
  criteria : String
  status : String
  evidence : String
  guideline : String
  action : String
  confidence : ℚ
deriving DecidableEq

/-- Output of `evaluate_rules`; `missingCriteria` holds all six entries. -/
structure EvalResult where
  score : Int
  level : String
  justifications : List String
  missingCriteria : List CriterionResult
deriving DecidableEq

/-- Response bundle of the `analyze` operation. -/
structure Bundle where
  revisedNote : String
  missingCriteria : List CriterionResult
  score : Int
  level : String
deriving DecidableEq

/-- Minimal exponent `k` (up to the fuel) with `den ∣ 10^k`. -/
def denExp (den : Nat) : Nat → Nat → Nat
  | 0, k => k
  | fuel + 1, k => if 10 ^ k % den = 0 then k else denExp den fuel (k + 1)

/-- Python `str(float)` for the exact decimal values this program extracts
(shortest round-trip decimal form, always with a fractional part), computed
from the reduced numerator and denominator. -/
def pyFloatStr (q : ℚ) : String :=
  if q.den = 1 then toString q.num ++ ".0"
  else
    let k := denExp q.den 40 1
    let n := q.num.natAbs * (10 ^ k / q.den)
    let s := toString n
    let s2 := if s.length ≤ k then String.mk (List.replicate (k + 1 - s.length) '0') ++ s else s
    (if q.num < 0 then "-" else "") ++
      (String.mk (s2.data.take (s2.length - k)) ++ "." ++ String.mk (s2.data.drop (s2.length - k)))

/-- Python truthiness of an optional int (`None` and `0` are falsy). -/
def intTruthy : Option Int → Bool
  | some v => v != 0
  | none => false

/-- Python truthiness of an optional float. -/
def ratTruthy : Option ℚ → Bool
  | some v => v != 0
  | none => false

/-- Evidence string of the form `PRE<value>` when the optional int is truthy,
else the fixed "not documented" message (Python conditional expression on the
dict value's truthiness). -/
def truthyIntStr (pre : String) (o : Option Int) (msg : String) : String :=
  match o with
  | some v => if v = 0 then msg else pre ++ toString v
  | none => msg

/-- Evidence string for an optional float feature. -/
def truthyRatStr (pre : String) (o : Option ℚ) (msg : String) : String :=
  match o with
  | some v => if v = 0 then msg else pre ++ pyFloatStr v
  | none => msg

def noActionMsg : String := "No additional action needed."

/-- Oxygen-saturation criterion status. -/
def o2Status (o : Option Int) (thr : Int) : String :=
  match o with
  | some v => if v < thr then "Met" else "Partial"
  | none => "Missing"

/-- Oxygen-saturation score contribution. -/
def o2Score (o : Option Int) (thr : Int) : Int :=
  match o with
  | some v => if v < thr then 3 else 0
  | none => 0

/-- Oxygen-saturation justification contribution. -/
def o2Just (o : Option Int) (thr : Int) : List String :=
  match o with
  | some v =>
    if v < thr then ["Hypoxia documented (SpO2 " ++ toString v ++ "%)."] else []
  | none => []

/-- Oxygen-saturation confidence. -/
def o2Conf (o : Option Int) (thr : Int) : ℚ :=
  match o with
  | some v => if v < thr then mkRat 95 100 else mkRat 75 100
  | none => mkRat 9 10

/-- `evaluate_rules` from `main.py`: six criteria in fixed order, additive
score (+3 hypoxia, +2 pneumonia), and the aggregate admission level. -/
def evaluate_rules (f : FeatureSet) (r : Rules) : EvalResult :=
  let score : Int := o2Score f.o2_sat r.o2_sat_threshold + (if f.pneumonia then 2 else 0)
  let justifications : List String :=
    o2Just f.o2_sat r.o2_sat_threshold ++
    (if f.pneumonia then ["Radiographic evidence of pneumonia documented."] else []) ++
    (if f.iv_antibiotics then ["IV antibiotics documented."] else [])
  let e0 : CriterionResult :=
    { criteria := "Oxygen saturation"
      status := o2Status f.o2_sat r.o2_sat_threshold
      evidence := truthyIntStr "SpO2: " f.o2_sat "No oxygen saturation documented."
      guideline := "MCG suggests admission if SpO2 < " ++ toString r.o2_sat_threshold ++ "%."
      action := if o2Status f.o2_sat r.o2_sat_threshold = "Met" then noActionMsg
                else "Document oxygen saturation and need for supplemental oxygen."
      confidence := o2Conf f.o2_sat r.o2_sat_threshold }
  let e1 : CriterionResult :=
    { criteria := "Radiographic evidence of pneumonia"
      status := if f.pneumonia then "Met" else "Missing"
      evidence := if f.pneumonia then "Imaging suggests pneumonia."
                  else "No imaging documentation found."
      guideline := "MCG requires objective imaging confirmation."
      action := if f.pneumonia then noActionMsg else "Document imaging findings clearly."
      confidence := if f.pneumonia then mkRat 9 10 else mkRat 85 100 }
  let e2 : CriterionResult :=
    { criteria := "Creatinine"
      status := if f.creatinine.isSome then "Met" else "Missing"
      evidence := truthyRatStr "Creatinine: " f.creatinine "No creatinine value documented."
      guideline := "Renal dysfunction increases severity and may support admission."
      action := if f.creatinine.isSome then noActionMsg else "Document renal function."
      confidence := mkRat 8 10 }
  let e3 : CriterionResult :=
    { criteria := "Troponin documentation"
      status := if f.troponin.isSome then "Met" else "Missing"
      evidence := truthyRatStr "Troponin: " f.troponin "No troponin result documented."
      guideline := "Cardiac involvement should be ruled out in elderly patients."
      action := if f.troponin.isSome then noActionMsg
                else "Document troponin if clinically indicated."
      confidence := if f.troponin.isSome then mkRat 8 10 else mkRat 75 100 }
  let e4 : CriterionResult :=
    { criteria := "Blood pressure"
      status := if f.sbp.isSome then "Met" else "Missing"
      evidence := truthyIntStr "SBP: " f.sbp "No systolic blood pressure documented."
      guideline := "Hemodynamic instability is an admission criterion."
      action := if f.sbp.isSome then noActionMsg
                else "Document blood pressure and hemodynamic status."
      confidence := mkRat 85 100 }
  let e5 : CriterionResult :=
    { criteria := "IV antibiotics"
      status := if f.iv_antibiotics then "Met" else "Missing"
      evidence := if f.iv_antibiotics then "IV antibiotics documented."
                  else "No intravenous antibiotic therapy documented."
      guideline := "MCG supports inpatient care when IV antibiotics are required."
      action := if f.iv_antibiotics then noActionMsg
                else "Document IV antibiotic administration."
      confidence := mkRat 9 10 }
  { score := score
    level := if score ≥ 6 then "Inpatient - strongly supported"
             else if score ≥ 3 then "Inpatient - possible"
             else "Observation / outpatient"
    justifications := justifications
    missingCriteria := [e0, e1, e2, e3, e4, e5] }

/-- `parse_guideline_thresholds` from `main.py`: defaults, with only the
oxygen-saturation threshold overridable from the guideline text. -/
def parse_guideline_thresholds (g : String) : Rules :=
  let rules : Rules :=
    { o2_sat_threshold := 90, troponin_threshold := mkRat 4 100
      creatinine_threshold := mkRat 3 2, sbp_threshold := 90 }
  match searchGuide g.data with
  | some n => { rules with o2_sat_threshold := n }
  | none => rules

/-- Default thresholds used by the text-only `analyze` endpoint. -/
def default_rules : Rules :=
  { o2_sat_threshold := 90, troponin_threshold := mkRat 4 100
    creatinine_threshold := mkRat 3 2, sbp_threshold := 90 }

/-- The feature dict built by `analyze` from the normalized note. -/
def extractFeatures (note : String) : FeatureSet :=
  { age := extract_age note
    o2_sat := extract_o2_sat note
    creatinine := extract_creatinine note
    troponin := extract_troponin note
    sbp := extract_sbp note
    pneumonia := detect_pneumonia note
    iv_antibiotics := detect_iv_antibiotics note
    hemodynamic_phrase := detect_hemodynamic_instability_phrase note }

/-- The `/analyze` operation.  The narrative rewriter is an external fallible
collaborator, modelled as a function returning `Except` (an exception carries
its message); its failure is caught and replaced by the normalized note plus
an inline error notice. -/
def analyze (rewriter : String → String → Except String String) (note : String) : Bundle :=
  let note' := normalize_text note
  let features := extractFeatures note'
  let results := evaluate_rules features default_rules
  let revisedNote :=
    match rewriter note' (String.intercalate "\n" results.justifications) with
    | .ok s => s
    | .error e => note' ++ "\n\nLLM error: " ++ e
  { revisedNote := revisedNote
    missingCriteria := results.missingCriteria
    score := results.score
    level := results.level }

/-- Scan predicate: every whitespace character is a plain space and no two
whitespace characters are adjacent; the flag records whether the previous
character was whitespace.  Text with this property is fixed by `step1`. -/
def wsOkB : Bool → List Char → Bool
  | _, [] => true
  | pw, c :: cs =>
    if isWsC c then !pw && (c = ' ') && wsOkB true cs
    else wsOkB false cs

/-- Continuation of a `([A-Za-z]+)\\.\\s` match after its first letter:
(more letters, then) a period followed by a whitespace character. -/
def rcM3 (l : List Char) : Bool :=
  match l.dropWhile isAlphaC with
  | '.' :: c :: _ => isWsC c
  | _ => false

/-- Match of `([A-Za-z]+)\\.\\s` anchored at the head (without the `\\b`). -/
def tryM3 (l : List Char) : Bool :=
  match l with
  | c :: cs => isAlphaC c && rcM3 cs
  | [] => false

/-- No position of the text starts a `\\b([A-Za-z]+)\\.\\s` match; `pw` is the
word-character status of the previous character (deciding `\\b`).  Text with
this property is fixed by `step3`. -/
def noM3 : Bool → List Char → Bool
  | _, [] => true
  | pw, c :: cs => (pw || !tryM3 (c :: cs)) && noM3 (isWordC c) cs

/-- Is the first list a prefix of the second (as a Boolean scan)? -/
def pfxB : List Char → List Char → Bool
  | [], _ => true
  | _ :: _, [] => false
  | p :: ps, c :: cs => (p = c) && pfxB ps cs

/-- Does `pat` occur as a contiguous substring of the text? -/
def hasOcc (pat : List Char) : List Char → Bool
  | [] => false
  | c :: cs => pfxB pat (c :: cs) || hasOcc pat cs

/-- Does the text contain the substring "O 2"? -/
def hasO2 (l : List Char) : Bool := hasOcc "O 2".data l

/-- Does the text contain the substring "SpO 2"? -/
def hasSpO2 (l : List Char) : Bool := hasOcc "SpO 2".data l

/-- Every whitespace character of the text is a plain space. -/
def wsSp (l : List Char) : Bool := l.all fun c => !isWsC c || c = ' '

/-- Word-character status of the last character of `u` (or the initial flag
`pw` if `u` is empty): the `\b` flag after scanning past `u`. -/
def pwA : Bool → List Char → Bool
  | pw, [] => pw
  | _, c :: cs => pwA (isWordC c) cs

/-- The character `'O'` (left context of the space deleted by the
"SpO 2"/"O 2" replacements). -/
def chO (c : Char) : Bool := c = 'O'

/-- The character `'2'` (right context of the space deleted by the
"SpO 2"/"O 2" replacements). -/
def chTwo (c : Char) : Bool := c = '2'

/-- Context-restricted deletion: `Del1 lc d hc v v'` says `v'` is `v` with
some occurrences of the character `d` deleted, where each deleted `d` is
immediately preceded by a character satisfying `lc` and immediately followed
by a character satisfying `hc`.  On space-normalized text, `step3` deletes
periods between a letter and whitespace, and the two `str.replace` passes
delete the space between `O` and `2`, so all three are instances. -/
inductive Del1 (lc : Char → Bool) (d : Char) (hc : Char → Bool) :
    List Char → List Char → Prop where
  | nil : Del1 lc d hc [] []
  | keep (c : Char) {v v' : List Char} : Del1 lc d hc v v' →
      Del1 lc d hc (c :: v) (c :: v')
  | del (a b : Char) {v v' : List Char} : lc a = true → hc b = true →
      Del1 lc d hc v v' →
      Del1 lc d hc (a :: d :: b :: v) (a :: b :: v')

/-- Structural characterization of texts fixed by `step2`: a sequence of
cells, each either a single character at which no match starts, or an intact
tight match `d.d` (which the sub rewrites to itself). -/
inductive Fix2I : List Char → Prop where
  | nil : Fix2I []
  | cons (c : Char) {cs : List Char} : matchDPD (c :: cs) = none → Fix2I cs →
      Fix2I (c :: cs)
  | cell (d d2 : Char) {tail : List Char} : isDigitC d = true → isDigitC d2 = true →
      Fix2I tail → Fix2I (d :: '.' :: d2 :: tail)

/-- Text a pending `St3` scanner state stands for. -/
def recon3 : St3 → List Char
  | .base _ => []
  | .run acc => acc.reverse
  | .dot acc => acc.reverse ++ ['.']

/-- Feature set of the C2 scenario: o2_sat 85, pneumonia and IV antibiotics
flagged, labs and blood pressure absent. -/
def c2Features : FeatureSet :=
  { age := none, o2_sat := some 85, creatinine := none, troponin := none
    sbp := none, pneumonia := true, iv_antibiotics := true, hemodynamic_phrase := false }

/-- Feature set with an extracted troponin of exactly 0 and nothing else. -/
def zeroTroponinFeatures : FeatureSet :=
  { age := none, o2_sat := none, creatinine := none, troponin := some 0
    sbp := none, pneumonia := false, iv_antibiotics := false, hemodynamic_phrase := false }

/-- Feature set with every feature absent or false. -/
def emptyFeatures : FeatureSet :=
  { age := none, o2_sat := none, creatinine := none, troponin := none
    sbp := none, pneumonia := false, iv_antibiotics := false, hemodynamic_phrase := false }

/-- The pneumonia checklist entry produced for `emptyFeatures`. -/
def emptyPneumoniaEntry : CriterionResult :=
  { criteria := "Radiographic evidence of pneumonia", status := "Missing"
    evidence := "No imaging documentation found."
    guideline := "MCG requires objective imaging confirmation."
    action := "Document imaging findings clearly.", confidence := mkRat 85 100 }

theorem chkInt_range {lo hi : Int} {o : Option Int} {v : Int}
    (h : chkInt lo hi o = some v) : lo ≤ v ∧ v ≤ hi := by
  cases o with
  | none => simp [chkInt] at h
  | some w =>
    simp only [chkInt] at h
    split at h
    · cases h
      rename_i hb
      simpa using hb
    · cases h

theorem chkRat_range {lo hi : ℚ} {o : Option ℚ} {v : ℚ}
    (h : chkRat lo hi o = some v) : lo ≤ v ∧ v ≤ hi := by
  cases o with
  | none => simp [chkRat] at h
  | some w =>
    simp only [chkRat] at h
    split at h
    · cases h
      rename_i hb
      simpa using hb
    · cases h

theorem mkRat_1_10 : (mkRat 1 10 : ℚ) = 1 / 10 := by
  norm_num [Rat.mkRat_eq_divInt, Rat.divInt_eq_div]

theorem mkRat_4_100 : (mkRat 4 100 : ℚ) = 4 / 100 := by
  norm_num [Rat.mkRat_eq_divInt, Rat.divInt_eq_div]

theorem mkRat_3_2 : (mkRat 3 2 : ℚ) = 3 / 2 := by
  norm_num [Rat.mkRat_eq_divInt, Rat.divInt_eq_div]

/-- C1: for every input string, each numeric feature extractor either returns
a value within its declared plausibility range (o2_sat 50–100, creatinine
0.1–20, troponin 0–100, sbp 60–250) or returns `none`; it never returns a
value outside that range (an out-of-range capture is discarded, not clamped:
every returned value passes through the range gate unchanged). -/
theorem extractor_ranges :
    (∀ t v, extract_o2_sat t = some v → 50 ≤ v ∧ v ≤ 100) ∧
    (∀ t q, extract_creatinine t = some q → 1 / 10 ≤ q ∧ q ≤ 20) ∧
    (∀ t q, extract_troponin t = some q → 0 ≤ q ∧ q ≤ 100) ∧
    (∀ t v, extract_sbp t = some v → 60 ≤ v ∧ v ≤ 250) := by
  refine ⟨?_, ?_, ?_, ?_⟩
  · intro t v h
    simp only [extract_o2_sat] at h
    cases h1 : chkInt 50 100 (searchO2P1 (spo2Sub t.data)) with
    | some w => rw [h1] at h; cases h; exact chkInt_range h1
    | none => rw [h1] at h; exact chkInt_range h
  · intro t q h
    simp only [extract_creatinine] at h
    have := chkRat_range h
    rwa [mkRat_1_10] at this
  · intro t q h
    simp only [extract_troponin] at h
    exact chkRat_range h
  · intro t v h
    simp only [extract_sbp] at h
    cases h1 : chkInt 60 250 (searchSbp1 false t.data) with
    | some w => rw [h1] at h; cases h; exact chkInt_range h1
    | none =>
      rw [h1] at h
      cases h2 : chkInt 60 250 (searchSbp2 t.data) with
      | some w => rw [h2] at h; cases h; exact chkInt_range h2
      | none => rw [h2] at h; exact chkInt_range h

/-- Witness for C1 at concrete extractions. -/
theorem extractor_ranges_w :
    ((50 : Int) ≤ 88 ∧ (88 : Int) ≤ 100) ∧
    ((1 : ℚ) / 10 ≤ mkRat 9 5 ∧ (mkRat 9 5 : ℚ) ≤ 20) ∧
    ((0 : ℚ) ≤ 0 ∧ (0 : ℚ) ≤ 100) ∧
    ((60 : Int) ≤ 152 ∧ (152 : Int) ≤ 250) :=
  ⟨extractor_ranges.1 "SpO2 88%" 88 (by decide),
   extractor_ranges.2.1 "CREATININE. 1.8" (mkRat 9 5) (by decide),
   extractor_ranges.2.2.1 "troponin 0" 0 (by decide),
   extractor_ranges.2.2.2 "152/68" 152 (by decide)⟩

/-- C7: the three-stage SBP cascade on its specified round-trip inputs:
an explicit label, an N/N pair (first number taken), and the broken table
form (first two digit groups concatenated). -/
theorem sbp_cascade :
    extract_sbp "SBP: 142" = some 142 ∧
    extract_sbp "152/68" = some 152 ∧
    extract_sbp "15 2/ 68" = some 152 :=
  ⟨by decide, by decide, by decide⟩

/-- C6: the guideline parser extracts 92 from "saturation below 92"; with no
matching label-plus-two-digit pattern every threshold keeps its default; and
the troponin, creatinine, and sbp thresholds equal their defaults (0.04, 1.5,
90) for every input text. -/
theorem guideline_thresholds :
    (parse_guideline_thresholds "saturation below 92").o2_sat_threshold = 92 ∧
    (∀ g, searchGuide g.data = none →
      parse_guideline_thresholds g =
        { o2_sat_threshold := 90, troponin_threshold := 4 / 100
          creatinine_threshold := 3 / 2, sbp_threshold := 90 }) ∧
    (∀ g, (parse_guideline_thresholds g).troponin_threshold = 4 / 100 ∧
          (parse_guideline_thresholds g).creatinine_threshold = 3 / 2 ∧
          (parse_guideline_thresholds g).sbp_threshold = 90) := by
  refine ⟨by decide, ?_, ?_⟩
  · intro g h
    simp only [parse_guideline_thresholds, h]
    rw [mkRat_4_100, mkRat_3_2]
  · intro g
    simp only [parse_guideline_thresholds]
    cases searchGuide g.data <;>
      simp [mkRat_4_100, mkRat_3_2]

/-- Witness for C6: the empty guideline text has no match, so all defaults. -/
theorem guideline_thresholds_w :
    parse_guideline_thresholds "" =
      { o2_sat_threshold := 90, troponin_threshold := 4 / 100
        creatinine_threshold := 3 / 2, sbp_threshold := 90 } :=
  guideline_thresholds.2.1 "" rfl

/-- C2 counterexample: at the stated features and default thresholds the
justification list is not the claimed two-element list — the rule engine also
appends the IV-antibiotics justification. -/
theorem c2_justifications_cex :
    (evaluate_rules c2Features default_rules).justifications ≠
      ["Hypoxia documented (SpO2 85%).",
       "Radiographic evidence of pneumonia documented."] := by decide

/-- C2 amended: score 5, level "Inpatient - possible", and exactly three
justifications — hypoxia, pneumonia, IV antibiotics, in that order. -/
theorem c2_bundle :
    (evaluate_rules c2Features default_rules).score = 5 ∧
    (evaluate_rules c2Features default_rules).level = "Inpatient - possible" ∧
    (evaluate_rules c2Features default_rules).justifications =
      ["Hypoxia documented (SpO2 85%).",
       "Radiographic evidence of pneumonia documented.",
       "IV antibiotics documented."] :=
  ⟨by decide, by decide, by decide⟩

theorem o2Score_cases (o : Option Int) (t : Int) : o2Score o t = 0 ∨ o2Score o t = 3 := by
  cases o with
  | none => exact Or.inl rfl
  | some v =>
    by_cases hv : v < t
    · exact Or.inr (by simp [o2Score, hv])
    · exact Or.inl (by simp [o2Score, hv])

/-- C4: the level mapping (≥6 strongly supported, 3–5 possible, <3
observation), and — the only point awards being +3 and +2 — the score never
exceeds 5, so "Inpatient - strongly supported" is never returned. -/
theorem score_level_mapping (f : FeatureSet) (r : Rules) :
    ((evaluate_rules f r).score ≥ 6 →
      (evaluate_rules f r).level = "Inpatient - strongly supported") ∧
    (3 ≤ (evaluate_rules f r).score ∧ (evaluate_rules f r).score < 6 →
      (evaluate_rules f r).level = "Inpatient - possible") ∧
    ((evaluate_rules f r).score < 3 →
      (evaluate_rules f r).level = "Observation / outpatient") ∧
    (evaluate_rules f r).score ≤ 5 ∧
    (evaluate_rules f r).level ≠ "Inpatient - strongly supported" := by
  have hs : (evaluate_rules f r).score =
      o2Score f.o2_sat r.o2_sat_threshold + (if f.pneumonia then 2 else 0) := rfl
  have hl : (evaluate_rules f r).level =
      (if (evaluate_rules f r).score ≥ 6 then "Inpatient - strongly supported"
       else if (evaluate_rules f r).score ≥ 3 then "Inpatient - possible"
       else "Observation / outpatient") := rfl
  rcases o2Score_cases f.o2_sat r.o2_sat_threshold with h0 | h0 <;>
    by_cases hp : f.pneumonia <;>
      rw [hl, hs, h0] <;> simp only [hp, if_true, if_false] <;> decide

/-- Witness for C4 in the middle band (score 5 at the C2 features). -/
theorem score_level_mapping_w :
    (3 ≤ (evaluate_rules c2Features default_rules).score ∧
      (evaluate_rules c2Features default_rules).score < 6) ∧
    (evaluate_rules c2Features default_rules).level = "Inpatient - possible" :=
  ⟨⟨by decide, by decide⟩,
   (score_level_mapping c2Features default_rules).2.1 ⟨by decide, by decide⟩⟩

/-- C9: the rule engine's entire output is independent of the age and
hemodynamic_phrase features — two feature sets differing only there produce
identical results. -/
theorem age_hemo_independent (f : FeatureSet) (r : Rules) (a : Option Int) (h : Bool) :
    evaluate_rules { f with age := a, hemodynamic_phrase := h } r = evaluate_rules f r := by
  cases f
  rfl

/-- C8 counterexample: `extract_troponin` can return exactly 0, and then the
troponin checklist entry's status is "Met" while its evidence is the
"not documented" message rather than quoting the value. -/
theorem troponin_zero_evidence_cex :
    extract_troponin "troponin 0" = some 0 ∧
    ((evaluate_rules zeroTroponinFeatures default_rules).missingCriteria[3]?).map
        CriterionResult.status = some "Met" ∧
    ((evaluate_rules zeroTroponinFeatures default_rules).missingCriteria[3]?).map
        CriterionResult.evidence = some "No troponin result documented." ∧
    ("No troponin result documented." : String) ≠ "Troponin: " ++ pyFloatStr 0 := by
  refine ⟨by decide, by decide, by decide, by decide⟩

/-- C8 amended: each entry's evidence quotes the extracted value exactly when
the feature is truthy (present and nonzero, or a set flag) and is the fixed
"not documented" message otherwise; in particular an extracted troponin of 0
yields the "not documented" message although the status is "Met". -/
theorem evidence_strings (f : FeatureSet) (r : Rules) :
    (evaluate_rules f r).missingCriteria.map CriterionResult.evidence =
      [(match f.o2_sat with
        | some v => if v = 0 then "No oxygen saturation documented."
                    else "SpO2: " ++ toString v
        | none => "No oxygen saturation documented."),
       (if f.pneumonia then "Imaging suggests pneumonia."
        else "No imaging documentation found."),
       (match f.creatinine with
        | some v => if v = 0 then "No creatinine value documented."
                    else "Creatinine: " ++ pyFloatStr v
        | none => "No creatinine value documented."),
       (match f.troponin with
        | some v => if v = 0 then "No troponin result documented."
                    else "Troponin: " ++ pyFloatStr v
        | none => "No troponin result documented."),
       (match f.sbp with
        | some v => if v = 0 then "No systolic blood pressure documented."
                    else "SBP: " ++ toString v
        | none => "No systolic blood pressure documented."),
       (if f.iv_antibiotics then "IV antibiotics documented."
        else "No intravenous antibiotic therapy documented.")] ∧
    (f.troponin = some 0 →
      ((evaluate_rules f r).missingCriteria[3]?).map CriterionResult.status = some "Met" ∧
      ((evaluate_rules f r).missingCriteria[3]?).map CriterionResult.evidence =
        some "No troponin result documented.") := by
  constructor
  · rfl
  · intro h
    constructor
    · show some (if f.troponin.isSome then "Met" else "Missing") = some "Met"
      rw [h]
      rfl
    · show some (truthyRatStr "Troponin: " f.troponin "No troponin result documented.") =
        some "No troponin result documented."
      rw [h]
      rfl

/-- Witness for C8's amended troponin clause at troponin = 0. -/
theorem evidence_strings_w :
    ((evaluate_rules zeroTroponinFeatures default_rules).missingCriteria[3]?).map
        CriterionResult.status = some "Met" ∧
    ((evaluate_rules zeroTroponinFeatures default_rules).missingCriteria[3]?).map
        CriterionResult.evidence = some "No troponin result documented." :=
  (evidence_strings zeroTroponinFeatures default_rules).2 rfl

theorem ite_met_missing (c : Prop) [Decidable c] :
    (if c then ("Met" : String) else "Missing") = "Met" ∨
    (if c then ("Met" : String) else "Missing") = "Missing" := by
  split
  · exact Or.inl rfl
  · exact Or.inr rfl

theorem action_iff (s other : String) (hno : ¬ other = "No additional action needed.") :
    ((if s = "Met" then "No additional action needed." else other) =
        "No additional action needed." ↔ s = "Met") := by
  by_cases hs : s = "Met"
  · simp [hs]
  · simp [hs, hno]

theorem action_iff_bool (b : Bool) (other : String)
    (hno : ¬ other = "No additional action needed.") :
    ((if b then "No additional action needed." else other) =
        "No additional action needed." ↔
      (if b then ("Met" : String) else "Missing") = "Met") := by
  cases b
  · simp only [Bool.false_eq_true, if_false]
    exact iff_of_false hno (by decide)
  · simp

/-- C10: only the first checklist entry can be "Partial" — exactly when
o2_sat is present and at or above the active threshold; the other five
entries are always "Met" or "Missing"; and in every entry the action is
"No additional action needed." exactly when the status is "Met". -/
theorem checklist_invariants (f : FeatureSet) (r : Rules) :
    (∀ e ∈ ((evaluate_rules f r).missingCriteria).tail,
       e.status = "Met" ∨ e.status = "Missing") ∧
    (∀ e ∈ (evaluate_rules f r).missingCriteria,
       (e.action = "No additional action needed." ↔ e.status = "Met")) ∧
    (((evaluate_rules f r).missingCriteria.head?).map CriterionResult.status =
        some "Partial" ↔
      ∃ v, f.o2_sat = some v ∧ r.o2_sat_threshold ≤ v) := by
  refine ⟨?_, ?_, ?_⟩
  · intro e he
    simp only [evaluate_rules, List.tail_cons, List.mem_cons, List.not_mem_nil,
      or_false] at he
    rcases he with rfl | rfl | rfl | rfl | rfl
    · exact ite_met_missing _
    · exact ite_met_missing _
    · exact ite_met_missing _
    · exact ite_met_missing _
    · exact ite_met_missing _
  · intro e he
    simp only [evaluate_rules, List.mem_cons, List.not_mem_nil, or_false] at he
    rcases he with rfl | rfl | rfl | rfl | rfl | rfl
    · exact action_iff _ _ (by decide)
    · exact action_iff_bool _ _ (by decide)
    · exact action_iff_bool _ _ (by decide)
    · exact action_iff_bool _ _ (by decide)
    · exact action_iff_bool _ _ (by decide)
    · exact action_iff_bool _ _ (by decide)
  · show some (o2Status f.o2_sat r.o2_sat_threshold) = some "Partial" ↔ _
    rcases hf : f.o2_sat with _ | v
    · simp [o2Status]
    · by_cases hv : v < r.o2_sat_threshold
      · simp only [o2Status, hv, if_true, Option.some.injEq]
        constructor
        · intro hh; exact absurd hh (by decide)
        · rintro ⟨w, hw, hle⟩
          cases hw
          omega
      · simp only [o2Status, hv, if_false, Option.some.injEq]
        constructor
        · intro _; exact ⟨v, rfl, by omega⟩
        · intro _; trivial

/-- Witness for C10 at the all-absent feature set and the pneumonia entry. -/
theorem checklist_invariants_w :
    emptyPneumoniaEntry.status = "Met" ∨ emptyPneumoniaEntry.status = "Missing" :=
  (checklist_invariants emptyFeatures default_rules).1 emptyPneumoniaEntry (by decide)

/-- C3: a failing narrative rewriter does not abort `analyze`: the bundle is
still produced, its missingCriteria/score/level are exactly the rule-engine
output (what would be returned without the rewriter call), and revisedNote is
the normalized note with an appended inline error notice. -/
theorem analyze_rewriter_failure
    (rewriter : String → String → Except String String) (note e : String)
    (h : rewriter (normalize_text note)
          (String.intercalate "\n"
            (evaluate_rules (extractFeatures (normalize_text note))
              default_rules).justifications) = .error e) :
    analyze rewriter note =
      { revisedNote := normalize_text note ++ "\n\nLLM error: " ++ e
        missingCriteria :=
          (evaluate_rules (extractFeatures (normalize_text note)) default_rules).missingCriteria
        score := (evaluate_rules (extractFeatures (normalize_text note)) default_rules).score
        level := (evaluate_rules (extractFeatures (normalize_text note)) default_rules).level } := by
  simp only [analyze, h]

/-- Witness for C3 with an always-failing rewriter on the empty note. -/
theorem analyze_rewriter_failure_w :
    analyze (fun _ _ => Except.error "boom") "" =
      { revisedNote := normalize_text "" ++ "\n\nLLM error: " ++ "boom"
        missingCriteria :=
          (evaluate_rules (extractFeatures (normalize_text "")) default_rules).missingCriteria
        score := (evaluate_rules (extractFeatures (normalize_text "")) default_rules).score
        level := (evaluate_rules (extractFeatures (normalize_text "")) default_rules).level } :=
  analyze_rewriter_failure (fun _ _ => Except.error "boom") "" "boom" rfl

theorem ws_not_digit {c : Char} (h : isWsC c = true) : isDigitC c = false := by
  simp only [isWsC, Bool.or_eq_true, decide_eq_true_eq] at h
  rcases h with ((((rfl | rfl) | rfl) | rfl) | rfl) | rfl <;> decide

theorem digit_not_ws {c : Char} (h : isDigitC c = true) : isWsC c = false := by
  by_contra hw
  rw [Bool.not_eq_false] at hw
  simp only [isWsC, Bool.or_eq_true, decide_eq_true_eq] at hw
  rcases hw with ((((rfl | rfl) | rfl) | rfl) | rfl) | rfl <;> revert h <;> decide

theorem alpha_not_digit {c : Char} (h : isAlphaC c = true) : isDigitC c = false := by
  simp only [isAlphaC, isDigitC, Bool.or_eq_true, Bool.and_eq_true,
    decide_eq_true_eq] at h ⊢
  simp only [Bool.and_eq_false_iff, decide_eq_false_iff_not, not_le]
  omega

theorem alpha_not_ws {c : Char} (h : isAlphaC c = true) : isWsC c = false := by
  by_contra hw
  rw [Bool.not_eq_false] at hw
  simp only [isWsC, Bool.or_eq_true, decide_eq_true_eq] at hw
  rcases hw with ((((rfl | rfl) | rfl) | rfl) | rfl) | rfl <;> revert h <;> decide

theorem alpha_ne_dot {c : Char} (h : isAlphaC c = true) : c ≠ '.' := by
  rintro rfl
  revert h
  decide

theorem bool_false_not {b : Bool} (h : b = false) : ¬ b = true := by
  simp [h]

theorem dropWhile_append_of_all {p : Char → Bool} {w : List Char}
    (hw : ∀ c ∈ w, p c = true) (l : List Char) :
    List.dropWhile p (w ++ l) = List.dropWhile p l := by
  induction w with
  | nil => rfl
  | cons c w ih =>
    rw [List.cons_append, List.dropWhile_cons_of_pos (hw c (by simp))]
    exact ih (fun c hc => hw c (by simp [hc]))

theorem dropWhile_head_false {p : Char → Bool} {l xs : List Char} {x : Char}
    (h : List.dropWhile p l = x :: xs) : p x = false := by
  induction l with
  | nil => cases h
  | cons c cs ih =>
    by_cases hc : p c = true
    · rw [List.dropWhile_cons_of_pos hc] at h
      exact ih h
    · rw [List.dropWhile_cons_of_neg hc] at h
      cases h
      exact Bool.not_eq_true _ ▸ hc

theorem matchDPD_nondigit {c : Char} {cs : List Char} (h : isDigitC c = false) :
    matchDPD (c :: cs) = none := by
  simp [matchDPD, h]

theorem matchDPD_some_iff {c d d2 : Char} {cs tail : List Char} :
    matchDPD (c :: cs) = some (d, d2, tail) ↔
      d = c ∧ isDigitC c = true ∧ isDigitC d2 = true ∧
      ∃ r2, cs.dropWhile isWsC = '.' :: r2 ∧ r2.dropWhile isWsC = d2 :: tail := by
  constructor
  · intro h
    cases hd : isDigitC c with
    | false => rw [matchDPD_nondigit hd] at h; cases h
    | true =>
      simp only [matchDPD, hd, if_true] at h
      split at h
      · rename_i r2 heq1
        split at h
        · rename_i d2x tailx heq2
          split at h
          · rename_i hy
            cases h
            exact ⟨rfl, rfl, hy, r2, heq1, heq2⟩
          · cases h
        · cases h
      · cases h
  · rintro ⟨rfl, hd, hd2, r2, hr1, hr2⟩
    simp [matchDPD, hd, hr1, hr2, hd2]

theorem matchDPD_length {c : Char} {cs : List Char} {d d2 : Char} {tail : List Char}
    (h : matchDPD (c :: cs) = some (d, d2, tail)) : tail.length < (c :: cs).length := by
  obtain ⟨-, -, -, r2, hr1, hr2⟩ := matchDPD_some_iff.mp h
  have h1 : tail.length + 1 = (r2.dropWhile isWsC).length := by rw [hr2]; rfl
  have h2 : (r2.dropWhile isWsC).length ≤ r2.length := (List.dropWhile_sublist _).length_le
  have h3 : r2.length + 1 = (cs.dropWhile isWsC).length := by rw [hr1]; rfl
  have h4 : (cs.dropWhile isWsC).length ≤ cs.length := (List.dropWhile_sublist _).length_le
  simp only [List.length_cons]
  omega

theorem step2_nil : step2 [] = [] := by
  rw [step2]

theorem step2_match {c d d2 : Char} {cs tail : List Char}
    (h : matchDPD (c :: cs) = some (d, d2, tail)) :
    step2 (c :: cs) = d :: '.' :: d2 :: step2 tail := by
  rw [step2]
  split
  · rename_i d' d2' tail' heq
    rw [h] at heq
    cases heq
    rfl
  · rename_i heq
    rw [h] at heq
    cases heq

theorem step2_nomatch {c : Char} {cs : List Char}
    (h : matchDPD (c :: cs) = none) :
    step2 (c :: cs) = c :: step2 cs := by
  rw [step2]
  split
  · rename_i d' d2' tail' heq
    rw [h] at heq
    cases heq
  · rfl

theorem step2_cons_ex (x : Char) (xs : List Char) :
    ∃ ys, step2 (x :: xs) = x :: ys := by
  cases h : matchDPD (x :: xs) with
  | some y =>
    obtain ⟨d, d2, tail⟩ := y
    obtain ⟨rfl, -, -, -⟩ := matchDPD_some_iff.mp h
    exact ⟨'.' :: d2 :: step2 tail, step2_match h⟩
  | none => exact ⟨step2 xs, step2_nomatch h⟩

theorem step2_ws_append {w : List Char} (hw : ∀ c ∈ w, isWsC c = true)
    (l : List Char) : step2 (w ++ l) = w ++ step2 l := by
  induction w with
  | nil => rfl
  | cons c w ih =>
    rw [List.cons_append,
      step2_nomatch (matchDPD_nondigit (ws_not_digit (hw c (by simp)))),
      ih (fun c hc => hw c (by simp [hc]))]
    rfl

theorem matchDPD_none_step2 {c : Char} {cs : List Char}
    (h : matchDPD (c :: cs) = none) : matchDPD (c :: step2 cs) = none := by
  cases hm : matchDPD (c :: step2 cs) with
  | none => rfl
  | some y =>
    exfalso
    obtain ⟨d, d2, tail⟩ := y
    obtain ⟨-, hd, hd2, r2x, hA, hB⟩ := matchDPD_some_iff.mp hm
    have hstep : step2 cs = cs.takeWhile isWsC ++ step2 (cs.dropWhile isWsC) := by
      conv_lhs => rw [← List.takeWhile_append_dropWhile isWsC cs]
      exact step2_ws_append (fun c hc => List.mem_takeWhile_imp hc) _
    have hdw : (step2 cs).dropWhile isWsC =
        (step2 (cs.dropWhile isWsC)).dropWhile isWsC := by
      rw [hstep, dropWhile_append_of_all (fun c hc => List.mem_takeWhile_imp hc)]
    rw [hdw] at hA
    cases hr1 : cs.dropWhile isWsC with
    | nil => rw [hr1, step2_nil, List.dropWhile_nil] at hA; cases hA
    | cons x r1 =>
      have hxws : isWsC x = false := dropWhile_head_false hr1
      have hx : x = '.' := by
        obtain ⟨ys, hys⟩ := step2_cons_ex x r1
        rw [hr1, hys, List.dropWhile_cons_of_neg (bool_false_not hxws)] at hA
        injection hA with h1 h2
      subst hx
      have hs1 : step2 ('.' :: r1) = '.' :: step2 r1 :=
        step2_nomatch (matchDPD_nondigit (by decide))
      rw [hr1, hs1, List.dropWhile_cons_of_neg (by decide : ¬ isWsC '.' = true)] at hA
      injection hA with h1 h2
      subst h2
      have hstep2 : step2 r1 = r1.takeWhile isWsC ++ step2 (r1.dropWhile isWsC) := by
        conv_lhs => rw [← List.takeWhile_append_dropWhile isWsC r1]
        exact step2_ws_append (fun c hc => List.mem_takeWhile_imp hc) _
      have hdw2 : (step2 r1).dropWhile isWsC =
          (step2 (r1.dropWhile isWsC)).dropWhile isWsC := by
        rw [hstep2, dropWhile_append_of_all (fun c hc => List.mem_takeWhile_imp hc)]
      rw [hdw2] at hB
      cases hr3 : r1.dropWhile isWsC with
      | nil => rw [hr3, step2_nil, List.dropWhile_nil] at hB; cases hB
      | cons z r3 =>
        have hzws : isWsC z = false := dropWhile_head_false hr3
        obtain ⟨zs, hzs⟩ := step2_cons_ex z r3
        rw [hr3, hzs, List.dropWhile_cons_of_neg (bool_false_not hzws)] at hB
        injection hB with h1 h2
        rw [← h1] at hd2
        have : matchDPD (c :: cs) = some (c, z, r3) :=
          matchDPD_some_iff.mpr ⟨rfl, hd, hd2, r1, hr1, hr3⟩
        rw [this] at h
        cases h

theorem fix2_step2 (x : List Char) : Fix2I (step2 x) := by
  have H : ∀ n (x : List Char), x.length ≤ n → Fix2I (step2 x) := by
    intro n
    induction n with
    | zero =>
      intro x hx
      have hnil : x = [] := List.eq_nil_of_length_eq_zero (Nat.le_zero.mp hx)
      subst hnil
      rw [step2_nil]
      exact .nil
    | succ n ih =>
      intro x hx
      match x with
      | [] =>
        rw [step2_nil]
        exact .nil
      | c :: cs =>
        cases h : matchDPD (c :: cs) with
        | some y =>
          obtain ⟨d, d2, tail⟩ := y
          rw [step2_match h]
          obtain ⟨rfl, hdc, hd2, -⟩ := matchDPD_some_iff.mp h
          have hlt := matchDPD_length h
          refine .cell _ _ hdc hd2 (ih tail ?_)
          simp only [List.length_cons] at hlt hx
          omega
        | none =>
          rw [step2_nomatch h]
          refine .cons _ (matchDPD_none_step2 h) (ih cs ?_)
          simp only [List.length_cons] at hx
          omega
  exact H x.length x le_rfl

theorem fix2_id {u : List Char} (h : Fix2I u) : step2 u = u := by
  induction h with
  | nil => exact step2_nil
  | cons c hm _ ih => rw [step2_nomatch hm, ih]
  | @cell d d2 tail hd hd2 _ ih =>
    have hm : matchDPD (d :: '.' :: d2 :: tail) = some (d, d2, tail) :=
      matchDPD_some_iff.mpr ⟨rfl, hd, hd2, d2 :: tail,
        List.dropWhile_cons_of_neg (by decide),
        List.dropWhile_cons_of_neg (bool_false_not (digit_not_ws hd2))⟩
    rw [step2_match hm, ih]

theorem ws_not_word {c : Char} (h : isWsC c = true) : isWordC c = false := by
  simp only [isWsC, Bool.or_eq_true, decide_eq_true_eq] at h
  rcases h with ((((rfl | rfl) | rfl) | rfl) | rfl) | rfl <;> decide

theorem alpha_word {c : Char} (h : isAlphaC c = true) : isWordC c = true := by
  simp [isWordC, h]

theorem dot_not_ws : isWsC '.' = false := by decide

theorem dot_not_digit : isDigitC '.' = false := by decide

theorem dot_not_alpha : isAlphaC '.' = false := by decide

theorem wsOk_cons_ws {pw : Bool} {c : Char} {cs : List Char} (h : isWsC c = true) :
    wsOkB pw (c :: cs) = (!pw && decide (c = ' ') && wsOkB true cs) := by
  simp [wsOkB, h]

theorem wsOk_cons_nws {pw : Bool} {c : Char} {cs : List Char} (h : isWsC c = false) :
    wsOkB pw (c :: cs) = wsOkB false cs := by
  simp [wsOkB, h]

theorem collapseWs_wsOk (l : List Char) : ∀ pw, wsOkB pw (collapseWs pw l) = true := by
  induction l with
  | nil => intro pw; rfl
  | cons c cs ih =>
    intro pw
    cases hc : isWsC c with
    | true =>
      cases pw with
      | true =>
        simpa [collapseWs, hc] using ih true
      | false =>
        have : collapseWs false (c :: cs) = ' ' :: collapseWs true cs := by
          simp [collapseWs, hc]
        rw [this, wsOk_cons_ws (by decide)]
        simpa using ih true
    | false =>
      have : collapseWs pw (c :: cs) = c :: collapseWs false cs := by
        simp [collapseWs, hc]
      rw [this, wsOk_cons_nws hc]
      exact ih false

theorem wsOk_id (l : List Char) : ∀ pw, wsOkB pw l = true → collapseWs pw l = l := by
  induction l with
  | nil => intro pw _; rfl
  | cons c cs ih =>
    intro pw h
    cases hc : isWsC c with
    | true =>
      rw [wsOk_cons_ws hc] at h
      simp only [Bool.and_eq_true, Bool.not_eq_true', decide_eq_true_eq] at h
      obtain ⟨⟨hpw, hsp⟩, hrest⟩ := h
      subst hpw
      simp only [collapseWs, hc, if_true]
      rw [hsp, ih true hrest]
      simp
    | false =>
      rw [wsOk_cons_nws hc] at h
      simp only [collapseWs, hc]
      simp only [Bool.false_eq_true, if_false]
      rw [ih false h]

theorem wsOk_append_exists {v : List Char} : ∀ (u : List Char) (pw : Bool),
    wsOkB pw (u ++ v) = true → ∃ q, wsOkB q v = true := by
  intro u
  induction u with
  | nil => exact fun pw h => ⟨pw, h⟩
  | cons c cs ih =>
    intro pw h
    cases hc : isWsC c with
    | true =>
      rw [List.cons_append, wsOk_cons_ws hc] at h
      simp only [Bool.and_eq_true] at h
      exact ih true h.2
    | false =>
      rw [List.cons_append, wsOk_cons_nws hc] at h
      exact ih false h

theorem wsOk_take {v : List Char} : ∀ (u : List Char) (pw : Bool),
    wsOkB pw (u ++ v) = true → wsOkB pw u = true := by
  intro u
  induction u with
  | nil => intro pw _; rfl
  | cons c cs ih =>
    intro pw h
    cases hc : isWsC c with
    | true =>
      rw [List.cons_append, wsOk_cons_ws hc] at h
      rw [wsOk_cons_ws hc]
      simp only [Bool.and_eq_true] at h ⊢
      exact ⟨h.1, ih true h.2⟩
    | false =>
      rw [List.cons_append, wsOk_cons_nws hc] at h
      rw [wsOk_cons_nws hc]
      exact ih false h

theorem wsOk_flag_nws {q p : Bool} {c : Char} {l : List Char} (hc : isWsC c = false)
    (h : wsOkB q (c :: l) = true) : wsOkB p (c :: l) = true := by
  rw [wsOk_cons_nws hc] at h
  rw [wsOk_cons_nws hc]
  exact h

theorem wsOk_wsSp : ∀ (l : List Char) (pw : Bool), wsOkB pw l = true → wsSp l = true := by
  intro l
  induction l with
  | nil => intro pw _; rfl
  | cons c cs ih =>
    intro pw h
    cases hc : isWsC c with
    | true =>
      rw [wsOk_cons_ws hc] at h
      simp only [Bool.and_eq_true, Bool.not_eq_true', decide_eq_true_eq] at h
      simp only [wsSp, List.all_cons, Bool.and_eq_true]
      refine ⟨by simp [h.1.2], ?_⟩
      exact ih true h.2
    | false =>
      rw [wsOk_cons_nws hc] at h
      simp only [wsSp, List.all_cons, Bool.and_eq_true]
      refine ⟨by simp [hc], ?_⟩
      exact ih false h

theorem step2_wsOk (x : List Char) (pw : Bool) (hx : wsOkB pw x = true) :
    wsOkB pw (step2 x) = true := by
  have H : ∀ n (x : List Char), x.length ≤ n → ∀ pw, wsOkB pw x = true →
      wsOkB pw (step2 x) = true := by
    intro n
    induction n with
    | zero =>
      intro x hlen pw h
      have hnil : x = [] := List.eq_nil_of_length_eq_zero (Nat.le_zero.mp hlen)
      subst hnil
      rw [step2_nil]
      exact h
    | succ n ih =>
      intro x hlen pw h
      match x with
      | [] => rw [step2_nil]; exact h
      | c :: cs =>
        cases hm : matchDPD (c :: cs) with
        | some y =>
          obtain ⟨d, d2, tail⟩ := y
          rw [step2_match hm]
          obtain ⟨rfl, hdc, hd2, r2, hr1, hr2⟩ := matchDPD_some_iff.mp hm
          have hcs : cs = cs.takeWhile isWsC ++ ('.' :: r2) := by
            rw [← hr1, List.takeWhile_append_dropWhile]
          have hr2' : r2 = r2.takeWhile isWsC ++ (d2 :: tail) := by
            rw [← hr2, List.takeWhile_append_dropWhile]
          have h1 : wsOkB false cs = true := by
            rw [wsOk_cons_nws (digit_not_ws hdc)] at h
            exact h
          rw [hcs] at h1
          obtain ⟨q, hq⟩ := wsOk_append_exists _ _ h1
          rw [wsOk_cons_nws dot_not_ws] at hq
          rw [hr2'] at hq
          obtain ⟨q2, hq2⟩ := wsOk_append_exists _ _ hq
          rw [wsOk_cons_nws (digit_not_ws hd2)] at hq2
          rw [wsOk_cons_nws (digit_not_ws hdc), wsOk_cons_nws dot_not_ws,
            wsOk_cons_nws (digit_not_ws hd2)]
          have hlt := matchDPD_length hm
          refine ih tail ?_ false hq2
          simp only [List.length_cons] at hlt hlen
          omega
        | none =>
          rw [step2_nomatch hm]
          cases hc : isWsC c with
          | true =>
            rw [wsOk_cons_ws hc] at h ⊢
            simp only [Bool.and_eq_true] at h ⊢
            refine ⟨h.1, ih cs ?_ true h.2⟩
            simp only [List.length_cons] at hlen
            omega
          | false =>
            rw [wsOk_cons_nws hc] at h ⊢
            refine ih cs ?_ false h
            simp only [List.length_cons] at hlen
            omega
  exact H x.length x le_rfl pw hx

theorem del1_refl {lc : Char → Bool} {d : Char} {hc : Char → Bool} :
    ∀ u : List Char, Del1 lc d hc u u
  | [] => .nil
  | c :: cs => .keep c (del1_refl cs)

theorem del1_append_left {lc : Char → Bool} {d : Char} {hc : Char → Bool}
    {u u' : List Char} (h : Del1 lc d hc u u') :
    ∀ w : List Char, Del1 lc d hc (w ++ u) (w ++ u')
  | [] => h
  | c :: cs => .keep c (del1_append_left h cs)

theorem del1_nil {lc : Char → Bool} {d : Char} {hc : Char → Bool} {u' : List Char}
    (h : Del1 lc d hc [] u') : u' = [] := by
  cases h
  rfl

theorem del1_cons_ex {lc : Char → Bool} {d : Char} {hc : Char → Bool} {c : Char}
    {v u' : List Char} (h : Del1 lc d hc (c :: v) u') :
    ∃ v₂, u' = c :: v₂ := by
  cases h with
  | keep _ _ => exact ⟨_, rfl⟩
  | del a b _ _ _ => exact ⟨_, rfl⟩

theorem del1_p1_back {lc : Char → Bool} {d : Char} {hc : Char → Bool}
    (hl : ∀ x, lc x = true → isWsC x = false ∧ x ≠ '.') :
    ∀ {w w' : List Char}, Del1 lc d hc w w' →
    ∀ {u1 tail' : List Char}, w' = u1 ++ '.' :: tail' → (∀ x ∈ u1, isWsC x = true) →
    ∃ tail, w = u1 ++ '.' :: tail ∧ Del1 lc d hc tail tail' := by
  intro w w' h
  induction h with
  | nil =>
    intro u1 tail' he _
    exact absurd he (by simp)
  | keep c prev ih =>
    intro u1 tail' he hu
    cases u1 with
    | nil =>
      simp only [List.nil_append] at he
      injection he with h1 h2
      subst h1
      subst h2
      exact ⟨_, rfl, prev⟩
    | cons y u1 =>
      rw [List.cons_append] at he
      injection he with h1 h2
      subst h1
      obtain ⟨tail, hv, hD⟩ := ih h2 (fun x hx => hu x (by simp [hx]))
      exact ⟨tail, by rw [List.cons_append, hv], hD⟩
  | del a b ha hb prev ih =>
    intro u1 tail' he hu
    cases u1 with
    | nil =>
      simp only [List.nil_append] at he
      injection he with h1 h2
      exact absurd h1 (hl a ha).2
    | cons y u1 =>
      rw [List.cons_append] at he
      injection he with h1 h2
      subst h1
      exact absurd (hu a (by simp)) (bool_false_not (hl a ha).1)

theorem del1_p2_back {lc : Char → Bool} {d : Char} {hc : Char → Bool}
    (hl : ∀ x, lc x = true → isWsC x = false ∧ isDigitC x = false) :
    ∀ {w w' : List Char}, Del1 lc d hc w w' →
    ∀ {u2 : List Char} {d2 : Char} {rest' : List Char},
    w' = u2 ++ d2 :: rest' → (∀ x ∈ u2, isWsC x = true) → isDigitC d2 = true →
    ∃ rest, w = u2 ++ d2 :: rest ∧ Del1 lc d hc rest rest' := by
  intro w w' h
  induction h with
  | nil =>
    intro u2 d2 rest' he _ _
    exact absurd he (by simp)
  | keep c prev ih =>
    intro u2 d2 rest' he hu hd2
    cases u2 with
    | nil =>
      simp only [List.nil_append] at he
      injection he with h1 h2
      subst h1
      subst h2
      exact ⟨_, rfl, prev⟩
    | cons y u2 =>
      rw [List.cons_append] at he
      injection he with h1 h2
      subst h1
      obtain ⟨rest, hv, hD⟩ := ih h2 (fun x hx => hu x (by simp [hx])) hd2
      exact ⟨rest, by rw [List.cons_append, hv], hD⟩
  | del a b ha hb prev ih =>
    intro u2 d2 rest' he hu hd2
    cases u2 with
    | nil =>
      simp only [List.nil_append] at he
      injection he with h1 h2
      subst h1
      exact absurd hd2 (bool_false_not (hl a ha).2)
    | cons y u2 =>
      rw [List.cons_append] at he
      injection he with h1 h2
      subst h1
      exact absurd (hu a (by simp)) (bool_false_not (hl a ha).1)

theorem matchDPD_del1 {lc : Char → Bool} {d : Char} {hc : Char → Bool}
    (hl : ∀ x, lc x = true → isWsC x = false ∧ isDigitC x = false ∧ x ≠ '.')
    {w w' : List Char} (hD : Del1 lc d hc w w') {c : Char}
    (h : matchDPD (c :: w) = none) : matchDPD (c :: w') = none := by
  cases hm : matchDPD (c :: w') with
  | none => rfl
  | some y =>
    exfalso
    obtain ⟨d0, d2, tail'⟩ := y
    obtain ⟨heq0, hdc, hd2, r2, hr1, hr2⟩ := matchDPD_some_iff.mp hm
    replace heq0 := heq0.symm
    subst heq0
    have hw' : w' = w'.takeWhile isWsC ++ ('.' :: r2) := by
      rw [← hr1, List.takeWhile_append_dropWhile]
    obtain ⟨t1, hw, hD1⟩ := del1_p1_back (fun x hx => ⟨(hl x hx).1, (hl x hx).2.2⟩) hD hw'
      (fun x hx => List.mem_takeWhile_imp hx)
    have hr2' : r2 = r2.takeWhile isWsC ++ (d2 :: tail') := by
      rw [← hr2, List.takeWhile_append_dropWhile]
    obtain ⟨rest, ht1, hD2⟩ := del1_p2_back (fun x hx => ⟨(hl x hx).1, (hl x hx).2.1⟩) hD1 hr2'
      (fun x hx => List.mem_takeWhile_imp hx) hd2
    have : matchDPD (c :: w) = some (c, d2, rest) := by
      refine matchDPD_some_iff.mpr ⟨rfl, hdc, hd2, t1, ?_, ?_⟩
      · rw [hw, dropWhile_append_of_all (fun x hx => List.mem_takeWhile_imp hx),
          List.dropWhile_cons_of_neg (bool_false_not dot_not_ws)]
      · rw [ht1, dropWhile_append_of_all (fun x hx => List.mem_takeWhile_imp hx),
          List.dropWhile_cons_of_neg (bool_false_not (digit_not_ws hd2))]
    rw [this] at h
    cases h

theorem wsOk_del1 {lc : Char → Bool} {d : Char} {hc : Char → Bool}
    (hl : ∀ x, lc x = true → isWsC x = false) :
    ∀ {v v' : List Char}, Del1 lc d hc v v' → ∀ pw, wsOkB pw v = true →
    wsOkB pw v' = true := by
  intro v v' h
  induction h with
  | nil => exact fun pw h => h
  | keep c prev ih =>
    intro pw h
    cases hcw : isWsC c with
    | true =>
      rw [wsOk_cons_ws hcw] at h ⊢
      simp only [Bool.and_eq_true] at h ⊢
      exact ⟨h.1, ih true h.2⟩
    | false =>
      rw [wsOk_cons_nws hcw] at h ⊢
      exact ih false h
  | del a b ha hb prev ih =>
    intro pw h
    have haw : isWsC a = false := hl a ha
    rw [wsOk_cons_nws haw] at h
    rw [wsOk_cons_nws haw]
    cases hdw : isWsC d with
    | true =>
      rw [wsOk_cons_ws hdw] at h
      simp only [Bool.and_eq_true] at h
      obtain ⟨h1, h2⟩ := h
      cases hbw : isWsC b with
      | true =>
        rw [wsOk_cons_ws hbw] at h2
        simp at h2
      | false =>
        rw [wsOk_cons_nws hbw] at h2
        rw [wsOk_cons_nws hbw]
        exact ih false h2
    | false =>
      rw [wsOk_cons_nws hdw] at h
      cases hbw : isWsC b with
      | true =>
        rw [wsOk_cons_ws hbw] at h ⊢
        simp only [Bool.and_eq_true] at h ⊢
        exact ⟨h.1, ih true h.2⟩
      | false =>
        rw [wsOk_cons_nws hbw] at h ⊢
        exact ih false h

theorem fix2_del1 {lc : Char → Bool} {d : Char} {hc : Char → Bool}
    (hl : ∀ x, lc x = true → isWsC x = false ∧ isDigitC x = false ∧ x ≠ '.')
    (hd : isDigitC d = false) :
    ∀ {v v' : List Char}, Del1 lc d hc v v' → Fix2I v → Fix2I v' := by
  have H : ∀ n (v v' : List Char), v.length ≤ n → Del1 lc d hc v v' → Fix2I v →
      Fix2I v' := by
    intro n
    induction n with
    | zero =>
      intro v v' hlen hD hF
      have hv : v = [] := List.eq_nil_of_length_eq_zero (Nat.le_zero.mp hlen)
      subst hv
      rw [del1_nil hD]
      exact .nil
    | succ n ih =>
      intro v v' hlen hD hF
      cases hD with
      | nil => exact .nil
      | keep c prev =>
        cases hF with
        | cons _ hm hF2 =>
          refine .cons c (matchDPD_del1 hl prev hm) (ih _ _ ?_ prev hF2)
          simp only [List.length_cons] at hlen
          omega
        | cell _ d2 hdc hd2 hFtail =>
          cases prev with
          | keep _ prev2 =>
            cases prev2 with
            | keep _ prev3 =>
              refine .cell c d2 hdc hd2 (ih _ _ ?_ prev3 hFtail)
              simp only [List.length_cons] at hlen
              omega
            | del a b ha hb prev3 =>
              exact absurd hd2 (bool_false_not (hl _ ha).2.1)
          | del a b ha hb prev2 =>
            exact absurd rfl (hl _ ha).2.2
      | del a b ha hb prev =>
        cases hF with
        | cons _ hm1 hF1 =>
          cases hF1 with
          | cons _ hm2 hF2 =>
            refine .cons a (matchDPD_nondigit (hl a ha).2.1) ?_
            refine ih _ _ ?_ (.keep b prev) hF2
            simp only [List.length_cons] at hlen ⊢
            omega
          | cell dd dd2 hdd hdd2 hFt =>
            exact absurd hdd (bool_false_not hd)
        | cell dd dd2 hdd hdd2 hFt =>
          exact absurd hdd (bool_false_not (hl a ha).2.1)
  exact fun {v v'} hD hF => H v.length v v' le_rfl hD hF

theorem dropWhile_append_cons {p : Char → Bool} {l w : List Char} {x : Char} {r : List Char}
    (h : l.dropWhile p = x :: r) : (l ++ w).dropWhile p = x :: (r ++ w) := by
  rw [List.dropWhile_append, h]
  simp

theorem rcM3_alpha_cons {c : Char} {l : List Char} (h : isAlphaC c = true) :
    rcM3 (c :: l) = rcM3 l := by
  unfold rcM3
  rw [List.dropWhile_cons_of_pos h]

theorem rcM3_cons_dot (x : Char) (r : List Char) : rcM3 ('.' :: x :: r) = isWsC x := by
  unfold rcM3
  rw [List.dropWhile_cons_of_neg (bool_false_not dot_not_alpha)]
  split
  · rename_i c0 tail0 heq
    injection heq with heq1 heq2
    injection heq2 with heq3 _
    rw [heq3]
  · rename_i hne
    exact absurd rfl (hne x r)

theorem rcM3_cons_other {c : Char} {l : List Char} (hca : isAlphaC c = false)
    (hcd : c ≠ '.') : rcM3 (c :: l) = false := by
  unfold rcM3
  rw [List.dropWhile_cons_of_neg (bool_false_not hca)]
  split
  · rename_i x r heq
    injection heq with h1 _
    exact absurd h1 hcd
  · rfl

theorem rcM3_append_mono {l w : List Char} (h : rcM3 l = true) : rcM3 (l ++ w) = true := by
  unfold rcM3 at h ⊢
  split at h
  · rename_i x r heq
    rw [dropWhile_append_cons heq, List.cons_append]
    exact h
  · exact absurd h (by simp)

theorem tryM3_cons (c : Char) (cs : List Char) :
    tryM3 (c :: cs) = (isAlphaC c && rcM3 cs) := rfl

theorem tryM3_append_mono {s : List Char} (w : List Char) (h : tryM3 s = true) :
    tryM3 (s ++ w) = true := by
  cases s with
  | nil => simp [tryM3] at h
  | cons c cs =>
    rw [tryM3_cons] at h
    simp only [Bool.and_eq_true] at h
    rw [List.cons_append, tryM3_cons]
    simp only [Bool.and_eq_true]
    exact ⟨h.1, rcM3_append_mono h.2⟩

theorem noM3_cons (pw : Bool) (c : Char) (cs : List Char) :
    noM3 pw (c :: cs) = ((pw || !tryM3 (c :: cs)) && noM3 (isWordC c) cs) := rfl

theorem noM3_append_elim {v : List Char} : ∀ (u : List Char) (pw : Bool),
    noM3 pw (u ++ v) = true → noM3 (pwA pw u) v = true := by
  intro u
  induction u with
  | nil => exact fun pw h => h
  | cons c cs ih =>
    intro pw h
    rw [List.cons_append, noM3_cons] at h
    simp only [Bool.and_eq_true] at h
    exact ih (isWordC c) h.2

theorem pwA_nonword : ∀ (u : List Char), (∀ c ∈ u, isWordC c = false) →
    pwA false u = false := by
  intro u
  induction u with
  | nil => intro _; rfl
  | cons c cs ih =>
    intro h
    show pwA (isWordC c) cs = false
    rw [h c (by simp)]
    exact ih (fun x hx => h x (by simp [hx]))

theorem noM3_take {v : List Char} : ∀ (u : List Char) (pw : Bool),
    noM3 pw (u ++ v) = true → noM3 pw u = true := by
  intro u
  induction u with
  | nil => intro pw _; rfl
  | cons c cs ih =>
    intro pw h
    rw [List.cons_append, noM3_cons] at h
    simp only [Bool.and_eq_true] at h
    rw [noM3_cons]
    simp only [Bool.and_eq_true]
    refine ⟨?_, ih (isWordC c) h.2⟩
    have h1 := h.1
    cases ht : tryM3 (c :: cs) with
    | false => simp [ht]
    | true =>
      have hm := tryM3_append_mono v ht
      rw [List.cons_append] at hm
      rw [hm] at h1
      simp only [Bool.not_true, Bool.or_false] at h1
      simp [h1]

theorem matchDPD_append_mono {c d d2 : Char} {cs tail : List Char} (w : List Char)
    (h : matchDPD (c :: cs) = some (d, d2, tail)) :
    matchDPD (c :: (cs ++ w)) = some (d, d2, tail ++ w) := by
  obtain ⟨heq, hdc, hd2, r2, hr1, hr2⟩ := matchDPD_some_iff.mp h
  exact matchDPD_some_iff.mpr
    ⟨heq, hdc, hd2, r2 ++ w, dropWhile_append_cons hr1, dropWhile_append_cons hr2⟩

theorem del1_cons_inv {lc : Char → Bool} {d : Char} {hc : Char → Bool} {x : Char}
    {v r : List Char} (h : Del1 lc d hc v (x :: r)) : ∃ v₁, v = x :: v₁ := by
  cases h with
  | keep _ _ => exact ⟨_, rfl⟩
  | del a b _ _ _ => exact ⟨_, rfl⟩

theorem rcM3_back {lc : Char → Bool} {d : Char} {hc : Char → Bool}
    (hg : ∀ x, hc x = true → isAlphaC x = false ∧ x ≠ '.' ∧ isWsC x = false) :
    ∀ {v v' : List Char}, Del1 lc d hc v v' → rcM3 v' = true → rcM3 v = true := by
  intro v v' h
  induction h with
  | nil => intro h0; exact absurd h0 (by decide)
  | keep c prev ih =>
    rename_i v0 v0'
    intro h0
    cases hca : isAlphaC c with
    | true =>
      rw [rcM3_alpha_cons hca] at h0
      rw [rcM3_alpha_cons hca]
      exact ih h0
    | false =>
      by_cases hcd : c = '.'
      · subst hcd
        cases v0' with
        | nil => exact absurd h0 (by decide)
        | cons x r =>
          rw [rcM3_cons_dot] at h0
          obtain ⟨v₁, rfl⟩ := del1_cons_inv prev
          rw [rcM3_cons_dot]
          exact h0
      · rw [rcM3_cons_other hca hcd] at h0
        cases h0
  | del a b ha hb prev ih =>
    intro h0
    obtain ⟨hba, hbd, hbw⟩ := hg b hb
    cases hca : isAlphaC a with
    | true =>
      rw [rcM3_alpha_cons hca, rcM3_cons_other hba hbd] at h0
      cases h0
    | false =>
      by_cases hcd : a = '.'
      · subst hcd
        rw [rcM3_cons_dot, hbw] at h0
        cases h0
      · rw [rcM3_cons_other hca hcd] at h0
        cases h0

theorem noM3_del1 {lc : Char → Bool} {d : Char} {hc : Char → Bool}
    (hg : ∀ x, hc x = true → isAlphaC x = false ∧ x ≠ '.' ∧ isWsC x = false) :
    ∀ {v v' : List Char}, Del1 lc d hc v v' → ∀ pw, noM3 pw v = true →
    noM3 pw v' = true := by
  intro v v' h
  induction h with
  | nil => exact fun pw h => h
  | keep c prev ih =>
    rename_i v0 v0'
    intro pw h0
    rw [noM3_cons] at h0
    simp only [Bool.and_eq_true] at h0
    rw [noM3_cons]
    simp only [Bool.and_eq_true]
    refine ⟨?_, ih (isWordC c) h0.2⟩
    have h1 := h0.1
    cases ht : tryM3 (c :: v0') with
    | false => simp [ht]
    | true =>
      rw [tryM3_cons] at ht
      simp only [Bool.and_eq_true] at ht
      have hr0 : rcM3 v0 = true := rcM3_back hg prev ht.2
      have htt : tryM3 (c :: v0) = true := by
        rw [tryM3_cons]
        simp [ht.1, hr0]
      rw [htt] at h1
      simp only [Bool.not_true, Bool.or_false] at h1
      simp [h1]
  | del a b ha hb prev ih =>
    rename_i v0 v0'
    intro pw h0
    obtain ⟨hba, hbd, hbw⟩ := hg b hb
    rw [noM3_cons] at h0
    simp only [Bool.and_eq_true] at h0
    obtain ⟨h1, h2⟩ := h0
    rw [noM3_cons] at h2
    simp only [Bool.and_eq_true] at h2
    obtain ⟨h3, h4⟩ := h2
    rw [noM3_cons] at h4
    simp only [Bool.and_eq_true] at h4
    obtain ⟨h5, h6⟩ := h4
    rw [noM3_cons]
    simp only [Bool.and_eq_true]
    refine ⟨?_, ?_⟩
    · have hf : tryM3 (a :: b :: v0') = false := by
        rw [tryM3_cons, rcM3_cons_other hba hbd]
        simp
      simp [hf]
    · rw [noM3_cons]
      simp only [Bool.and_eq_true]
      refine ⟨?_, ih (isWordC b) h6⟩
      have hf : tryM3 (b :: v0') = false := by
        rw [tryM3_cons, hba]
        simp
      simp [hf]

theorem fix2_nondigit_tail {c : Char} {v : List Char} (hF : Fix2I (c :: v))
    (hc : isDigitC c = false) : Fix2I v := by
  cases hF with
  | cons _ _ h => exact h
  | cell _ _ hdd _ h => exact absurd hdd (bool_false_not hc)

theorem fix2_drop_ws {v : List Char} : ∀ w : List Char, (∀ c ∈ w, isWsC c = true) →
    Fix2I (w ++ v) → Fix2I v := by
  intro w
  induction w with
  | nil => exact fun _ h => h
  | cons c cs ih =>
    intro hw hF
    rw [List.cons_append] at hF
    exact ih (fun x hx => hw x (by simp [hx]))
      (fix2_nondigit_tail hF (ws_not_digit (hw c (by simp))))

theorem fix2_split : ∀ {u : List Char}, Fix2I u → ∀ (t w : List Char),
    u = t ++ w → (∀ c ∈ w, isWsC c = true) → Fix2I t := by
  intro u hF
  induction hF with
  | nil =>
    intro t w he _
    cases t with
    | nil => exact .nil
    | cons c cs => simp at he
  | cons c hm hF ih =>
    intro t w he hw
    cases t with
    | nil => exact .nil
    | cons x t' =>
      rw [List.cons_append] at he
      injection he with he1 he2
      subst he1
      refine .cons c ?_ (ih t' w he2 hw)
      cases hmm : matchDPD (c :: t') with
      | none => rfl
      | some y =>
        obtain ⟨dx, d2x, tx⟩ := y
        have hext := matchDPD_append_mono w hmm
        rw [← he2] at hext
        rw [hext] at hm
        cases hm
  | cell dd dd2 hdd hdd2 hFt ih =>
    intro t w he hw
    cases t with
    | nil => exact .nil
    | cons x1 t1 =>
      rw [List.cons_append] at he
      injection he with he1 he2
      subst he1
      cases t1 with
      | nil =>
        exfalso
        simp only [List.nil_append] at he2
        have hdot : isWsC '.' = true := hw '.' (by rw [← he2]; simp)
        rw [dot_not_ws] at hdot
        cases hdot
      | cons x2 t2 =>
        rw [List.cons_append] at he2
        injection he2 with he3 he4
        subst he3
        cases t2 with
        | nil =>
          exfalso
          simp only [List.nil_append] at he4
          have hdw : isWsC dd2 = true := hw dd2 (by rw [← he4]; simp)
          rw [digit_not_ws hdd2] at hdw
          cases hdw
        | cons x3 t3 =>
          rw [List.cons_append] at he4
          injection he4 with he5 he6
          subst he5
          exact .cell dd dd2 hdd hdd2 (ih t3 w he6 hw)

theorem pfxB_append_self : ∀ (pat l : List Char), pfxB pat (pat ++ l) = true := by
  intro pat
  induction pat with
  | nil => intro l; rfl
  | cons p ps ih =>
    intro l
    rw [List.cons_append]
    show (decide (p = p) && pfxB ps (ps ++ l)) = true
    simp [ih l]

theorem pfxB_mono : ∀ (pat l w : List Char), pfxB pat l = true →
    pfxB pat (l ++ w) = true := by
  intro pat
  induction pat with
  | nil => intro l w _; rfl
  | cons p ps ih =>
    intro l w h
    cases l with
    | nil => simp [pfxB] at h
    | cons c cs =>
      rw [List.cons_append]
      have h' : (decide (p = c) && pfxB ps cs) = true := h
      show (decide (p = c) && pfxB ps (cs ++ w)) = true
      simp only [Bool.and_eq_true] at h' ⊢
      exact ⟨h'.1, ih cs w h'.2⟩

theorem hasOcc_cons_of {pat : List Char} {c : Char} {cs : List Char}
    (h : hasOcc pat cs = true) : hasOcc pat (c :: cs) = true := by
  show (pfxB pat (c :: cs) || hasOcc pat cs) = true
  simp [h]

theorem hasOcc_of_pfx {pat l : List Char} (hne : pat ≠ []) (h : pfxB pat l = true) :
    hasOcc pat l = true := by
  cases l with
  | nil =>
    cases pat with
    | nil => exact absurd rfl hne
    | cons p ps => simp [pfxB] at h
  | cons c cs =>
    show (pfxB pat (c :: cs) || hasOcc pat cs) = true
    simp [h]

theorem hasOcc_append_left {pat v : List Char} (h : hasOcc pat v = true) :
    ∀ u : List Char, hasOcc pat (u ++ v) = true := by
  intro u
  induction u with
  | nil => exact h
  | cons c cs ih =>
    rw [List.cons_append]
    exact hasOcc_cons_of ih

theorem hasOcc_append_right {pat : List Char} : ∀ (u w : List Char),
    hasOcc pat u = true → hasOcc pat (u ++ w) = true := by
  intro u
  induction u with
  | nil => intro w h; simp [hasOcc] at h
  | cons c cs ih =>
    intro w h
    have h' : (pfxB pat (c :: cs) || hasOcc pat cs) = true := h
    simp only [Bool.or_eq_true] at h'
    rw [List.cons_append]
    cases h' with
    | inl hp =>
      have hm := pfxB_mono pat (c :: cs) w hp
      rw [List.cons_append] at hm
      show (pfxB pat (c :: (cs ++ w)) || hasOcc pat (cs ++ w)) = true
      simp [hm]
    | inr hr =>
      exact hasOcc_cons_of (ih w hr)

theorem hasSpO2_hasO2 {l : List Char} (h : hasSpO2 l = true) : hasO2 l = true := by
  unfold hasSpO2 at h
  unfold hasO2
  induction l with
  | nil => simp [hasOcc] at h
  | cons c cs ih =>
    have h' : (pfxB "SpO 2".data (c :: cs) || hasOcc "SpO 2".data cs) = true := h
    simp only [Bool.or_eq_true] at h'
    cases h' with
    | inl hp =>
      have hp' : (decide ('S' = c) && pfxB ['p', 'O', ' ', '2'] cs) = true := hp
      simp only [Bool.and_eq_true] at hp'
      obtain ⟨h1, h2⟩ := hp'
      cases cs with
      | nil => simp [pfxB] at h2
      | cons c2 cs2 =>
        have h2' : (decide ('p' = c2) && pfxB ['O', ' ', '2'] cs2) = true := h2
        simp only [Bool.and_eq_true] at h2'
        have hocc : hasOcc "O 2".data cs2 = true := hasOcc_of_pfx (by decide) h2'.2
        exact hasOcc_cons_of (hasOcc_cons_of hocc)
    | inr hr =>
      exact hasOcc_cons_of (ih hr)

theorem stripWs_head (l : List Char) :
    stripWs l = [] ∨ ∃ c t, stripWs l = c :: t ∧ isWsC c = false := by
  unfold stripWs
  cases hu : l.dropWhile (fun c => isWsC c) with
  | nil => left; rfl
  | cons c v =>
    right
    have hc : isWsC c = false := dropWhile_head_false hu
    rw [List.reverse_cons, List.dropWhile_append]
    cases hv : v.reverse.dropWhile (fun c => isWsC c) with
    | nil =>
      refine ⟨c, [], ?_, hc⟩
      simp [List.dropWhile_cons_of_neg (bool_false_not hc)]
    | cons d w =>
      refine ⟨c, (d :: w).reverse, ?_, hc⟩
      simp

theorem stripWs_decomp (l : List Char) :
    ∃ w1 w2, l = w1 ++ (stripWs l ++ w2) ∧ (∀ c ∈ w1, isWsC c = true) ∧
      (∀ c ∈ w2, isWsC c = true) := by
  have h1 : l = l.takeWhile (fun c => isWsC c) ++ l.dropWhile (fun c => isWsC c) :=
    (List.takeWhile_append_dropWhile _ _).symm
  have h2 : (l.dropWhile (fun c => isWsC c)).reverse =
      (l.dropWhile (fun c => isWsC c)).reverse.takeWhile (fun c => isWsC c) ++
      (l.dropWhile (fun c => isWsC c)).reverse.dropWhile (fun c => isWsC c) :=
    (List.takeWhile_append_dropWhile _ _).symm
  have h3 : l.dropWhile (fun c => isWsC c) = stripWs l ++
      ((l.dropWhile (fun c => isWsC c)).reverse.takeWhile (fun c => isWsC c)).reverse := by
    conv_lhs => rw [← List.reverse_reverse (l.dropWhile (fun c => isWsC c)), h2,
      List.reverse_append]
    rfl
  refine ⟨l.takeWhile (fun c => isWsC c),
    ((l.dropWhile (fun c => isWsC c)).reverse.takeWhile (fun c => isWsC c)).reverse,
    h1.trans (by nth_rewrite 1 [h3]; rfl), ?_, ?_⟩
  · exact fun c hc => List.mem_takeWhile_imp hc
  · intro c hc
    rw [List.mem_reverse] at hc
    exact List.mem_takeWhile_imp hc

theorem stripWs_eq_self {l : List Char}
    (h1 : l = [] ∨ ∃ c t, l = c :: t ∧ isWsC c = false)
    (h2 : l.reverse = [] ∨ ∃ c t, l.reverse = c :: t ∧ isWsC c = false) :
    stripWs l = l := by
  have hd : l.dropWhile (fun c => isWsC c) = l := by
    rcases h1 with rfl | ⟨c, t, rfl, hc⟩
    · rfl
    · exact List.dropWhile_cons_of_neg (bool_false_not hc)
  unfold stripWs
  rw [hd]
  have hd2 : l.reverse.dropWhile (fun c => isWsC c) = l.reverse := by
    rcases h2 with he | ⟨c, t, he, hc⟩
    · rw [he]; rfl
    · rw [he]; exact List.dropWhile_cons_of_neg (bool_false_not hc)
  rw [hd2, List.reverse_reverse]

theorem stripWs_rev_head (l : List Char) :
    (stripWs l).reverse = [] ∨ ∃ c t, (stripWs l).reverse = c :: t ∧ isWsC c = false := by
  unfold stripWs
  rw [List.reverse_reverse]
  cases hv : (l.dropWhile (fun c => isWsC c)).reverse.dropWhile (fun c => isWsC c) with
  | nil => left; rfl
  | cons c t => right; exact ⟨c, t, rfl, dropWhile_head_false hv⟩

theorem stripWs_idem (l : List Char) : stripWs (stripWs l) = stripWs l :=
  stripWs_eq_self (stripWs_head l) (stripWs_rev_head l)

theorem replGo_nil (p0 : Char) (pt rep pend rest : List Char) :
    replGo p0 pt rep pend rest [] = pend.reverse := by
  cases rest <;> rfl

theorem replGo_cons (p0 : Char) (pt rep pend : List Char) (r : Char) (rs : List Char)
    (c : Char) (cs : List Char) :
    replGo p0 pt rep pend (r :: rs) (c :: cs) =
      if c = r then
        match rs with
        | [] => rep ++ replGo p0 pt rep [] (p0 :: pt) cs
        | _ :: _ => replGo p0 pt rep (c :: pend) rs cs
      else if c = p0 then pend.reverse ++ replGo p0 pt rep [c] pt cs
      else pend.reverse ++ c :: replGo p0 pt rep [] (p0 :: pt) cs := by
  rfl

theorem replA_nil : replGo 'O' [' ', '2'] ['O', '2'] [] ['O', ' ', '2'] [] = [] := rfl

theorem replB_nil : replGo 'O' [' ', '2'] ['O', '2'] ['O'] [' ', '2'] [] = ['O'] := rfl

theorem replC_nil : replGo 'O' [' ', '2'] ['O', '2'] [' ', 'O'] ['2'] [] = ['O', ' '] := rfl

theorem replA_O (cs : List Char) :
    replGo 'O' [' ', '2'] ['O', '2'] [] ['O', ' ', '2'] ('O' :: cs) =
    replGo 'O' [' ', '2'] ['O', '2'] ['O'] [' ', '2'] cs := rfl

theorem replA_other {c : Char} (hc : c ≠ 'O') (cs : List Char) :
    replGo 'O' [' ', '2'] ['O', '2'] [] ['O', ' ', '2'] (c :: cs) =
    c :: replGo 'O' [' ', '2'] ['O', '2'] [] ['O', ' ', '2'] cs := by
  rw [replGo_cons, if_neg hc, if_neg hc]
  rfl

theorem replB_sp (cs : List Char) :
    replGo 'O' [' ', '2'] ['O', '2'] ['O'] [' ', '2'] (' ' :: cs) =
    replGo 'O' [' ', '2'] ['O', '2'] [' ', 'O'] ['2'] cs := rfl

theorem replB_O (cs : List Char) :
    replGo 'O' [' ', '2'] ['O', '2'] ['O'] [' ', '2'] ('O' :: cs) =
    'O' :: replGo 'O' [' ', '2'] ['O', '2'] ['O'] [' ', '2'] cs := rfl

theorem replB_other {c : Char} (h1 : c ≠ ' ') (h2 : c ≠ 'O') (cs : List Char) :
    replGo 'O' [' ', '2'] ['O', '2'] ['O'] [' ', '2'] (c :: cs) =
    'O' :: c :: replGo 'O' [' ', '2'] ['O', '2'] [] ['O', ' ', '2'] cs := by
  rw [replGo_cons, if_neg h1, if_neg h2]
  rfl

theorem replC_two (cs : List Char) :
    replGo 'O' [' ', '2'] ['O', '2'] [' ', 'O'] ['2'] ('2' :: cs) =
    'O' :: '2' :: replGo 'O' [' ', '2'] ['O', '2'] [] ['O', ' ', '2'] cs := rfl

theorem replC_O (cs : List Char) :
    replGo 'O' [' ', '2'] ['O', '2'] [' ', 'O'] ['2'] ('O' :: cs) =
    'O' :: ' ' :: replGo 'O' [' ', '2'] ['O', '2'] ['O'] [' ', '2'] cs := rfl

theorem replC_other {c : Char} (h1 : c ≠ '2') (h2 : c ≠ 'O') (cs : List Char) :
    replGo 'O' [' ', '2'] ['O', '2'] [' ', 'O'] ['2'] (c :: cs) =
    'O' :: ' ' :: c :: replGo 'O' [' ', '2'] ['O', '2'] [] ['O', ' ', '2'] cs := by
  rw [replGo_cons, if_neg h1, if_neg h2]
  rfl

theorem replO2_del1 (l : List Char) : Del1 chO ' ' chTwo l (replO2 l) := by
  have H : ∀ l : List Char,
      Del1 chO ' ' chTwo l (replGo 'O' [' ', '2'] ['O', '2'] [] ['O', ' ', '2'] l) ∧
      Del1 chO ' ' chTwo ('O' :: l) (replGo 'O' [' ', '2'] ['O', '2'] ['O'] [' ', '2'] l) ∧
      Del1 chO ' ' chTwo ('O' :: ' ' :: l)
        (replGo 'O' [' ', '2'] ['O', '2'] [' ', 'O'] ['2'] l) := by
    intro l
    induction l with
    | nil =>
      refine ⟨?_, ?_, ?_⟩
      · rw [replA_nil]; exact .nil
      · rw [replB_nil]; exact del1_refl _
      · rw [replC_nil]; exact del1_refl _
    | cons c cs ih =>
      obtain ⟨ihA, ihB, ihC⟩ := ih
      refine ⟨?_, ?_, ?_⟩
      · by_cases hc : c = 'O'
        · subst hc
          rw [replA_O]
          exact ihB
        · rw [replA_other hc]
          exact .keep c ihA
      · by_cases hc : c = ' '
        · subst hc
          rw [replB_sp]
          exact ihC
        · by_cases hc2 : c = 'O'
          · subst hc2
            rw [replB_O]
            exact .keep 'O' ihB
          · rw [replB_other hc hc2]
            exact .keep 'O' (.keep c ihA)
      · by_cases hc : c = '2'
        · subst hc
          rw [replC_two]
          exact .del 'O' '2' (by decide) (by decide) ihA
        · by_cases hc2 : c = 'O'
          · subst hc2
            rw [replC_O]
            exact .keep 'O' (.keep ' ' ihB)
          · rw [replC_other hc hc2]
            exact .keep 'O' (.keep ' ' (.keep c ihA))
  exact (H l).1

theorem hasO2_cons_eq (c : Char) (out : List Char) :
    hasO2 (c :: out) = (pfxB "O 2".data (c :: out) || hasO2 out) := rfl

theorem hasO2_cons_ne {c : Char} (hc : c ≠ 'O') (out : List Char) :
    hasO2 (c :: out) = hasO2 out := by
  rw [hasO2_cons_eq]
  have h1 : pfxB "O 2".data (c :: out) = false := by
    show (decide ('O' = c) && pfxB [' ', '2'] out) = false
    rw [decide_eq_false (fun h => hc h.symm)]
    rfl
  rw [h1]
  simp

theorem hasO2_O_cons {b : Char} (hb : b ≠ ' ') (r : List Char) :
    hasO2 ('O' :: b :: r) = hasO2 (b :: r) := by
  rw [hasO2_cons_eq]
  have h1 : pfxB "O 2".data ('O' :: b :: r) = false := by
    show (decide ('O' = 'O') && (decide (' ' = b) && pfxB ['2'] r)) = false
    rw [show (decide (' ' = b)) = false from decide_eq_false (fun h => hb h.symm)]
    simp
  rw [h1]
  simp

theorem hasO2_OspX {x : Char} (hx : x ≠ '2') (r : List Char) :
    hasO2 ('O' :: ' ' :: x :: r) = hasO2 (' ' :: x :: r) := by
  rw [hasO2_cons_eq]
  have h1 : pfxB "O 2".data ('O' :: ' ' :: x :: r) = false := by
    show (decide ('O' = 'O') && (decide (' ' = ' ') && (decide ('2' = x) && pfxB [] r))) = false
    rw [show (decide ('2' = x)) = false from decide_eq_false (fun h => hx h.symm)]
    simp
  rw [h1]
  simp

theorem replO2_noO2 (l : List Char) : hasO2 (replO2 l) = false := by
  have H : ∀ l : List Char,
      hasO2 (replGo 'O' [' ', '2'] ['O', '2'] [] ['O', ' ', '2'] l) = false ∧
      (hasO2 (replGo 'O' [' ', '2'] ['O', '2'] ['O'] [' ', '2'] l) = false ∧
        ∃ r, replGo 'O' [' ', '2'] ['O', '2'] ['O'] [' ', '2'] l = 'O' :: r) ∧
      (hasO2 (replGo 'O' [' ', '2'] ['O', '2'] [' ', 'O'] ['2'] l) = false ∧
        ∃ r, replGo 'O' [' ', '2'] ['O', '2'] [' ', 'O'] ['2'] l = 'O' :: r) := by
    intro l
    induction l with
    | nil =>
      refine ⟨?_, ⟨?_, ?_⟩, ⟨?_, ?_⟩⟩
      · rw [replA_nil]; rfl
      · rw [replB_nil]; decide
      · rw [replB_nil]; exact ⟨[], rfl⟩
      · rw [replC_nil]; decide
      · rw [replC_nil]; exact ⟨[' '], rfl⟩
    | cons c cs ih =>
      obtain ⟨ihA, ⟨ihB, ihBh⟩, ihC, ihCh⟩ := ih
      refine ⟨?_, ⟨?_, ?_⟩, ⟨?_, ?_⟩⟩
      · by_cases hc : c = 'O'
        · subst hc; rw [replA_O]; exact ihB
        · rw [replA_other hc, hasO2_cons_ne hc]
          exact ihA
      · by_cases hc : c = ' '
        · subst hc; rw [replB_sp]; exact ihC
        · by_cases hc2 : c = 'O'
          · subst hc2
            rw [replB_O]
            obtain ⟨r, hr⟩ := ihBh
            rw [hr, hasO2_O_cons (by decide), ← hr]
            exact ihB
          · rw [replB_other hc hc2, hasO2_O_cons hc, hasO2_cons_ne hc2]
            exact ihA
      · by_cases hc : c = ' '
        · subst hc; rw [replB_sp]; exact ihCh
        · by_cases hc2 : c = 'O'
          · subst hc2; rw [replB_O]; exact ⟨_, rfl⟩
          · rw [replB_other hc hc2]; exact ⟨_, rfl⟩
      · by_cases hc : c = '2'
        · subst hc
          rw [replC_two, hasO2_O_cons (by decide), hasO2_cons_ne (by decide)]
          exact ihA
        · by_cases hc2 : c = 'O'
          · subst hc2
            rw [replC_O]
            obtain ⟨r, hr⟩ := ihBh
            rw [hr, hasO2_OspX (by decide), hasO2_cons_ne (by decide), ← hr]
            exact ihB
          · rw [replC_other hc hc2, hasO2_OspX hc, hasO2_cons_ne (by decide),
              hasO2_cons_ne hc2]
            exact ihA
      · by_cases hc : c = '2'
        · subst hc; rw [replC_two]; exact ⟨_, rfl⟩
        · by_cases hc2 : c = 'O'
          · subst hc2; rw [replC_O]; exact ⟨_, rfl⟩
          · rw [replC_other hc hc2]; exact ⟨_, rfl⟩
  exact (H l).1

theorem spA_S (cs : List Char) :
    replGo 'S' ['p', 'O', ' ', '2'] "SpO2".data [] ['S', 'p', 'O', ' ', '2'] ('S' :: cs) =
    replGo 'S' ['p', 'O', ' ', '2'] "SpO2".data ['S'] ['p', 'O', ' ', '2'] cs := rfl

theorem spA_other {c : Char} (hc : c ≠ 'S') (cs : List Char) :
    replGo 'S' ['p', 'O', ' ', '2'] "SpO2".data [] ['S', 'p', 'O', ' ', '2'] (c :: cs) =
    c :: replGo 'S' ['p', 'O', ' ', '2'] "SpO2".data [] ['S', 'p', 'O', ' ', '2'] cs := by
  rw [replGo_cons, if_neg hc, if_neg hc]
  rfl

theorem spB_p (cs : List Char) :
    replGo 'S' ['p', 'O', ' ', '2'] "SpO2".data ['S'] ['p', 'O', ' ', '2'] ('p' :: cs) =
    replGo 'S' ['p', 'O', ' ', '2'] "SpO2".data ['p', 'S'] ['O', ' ', '2'] cs := rfl

theorem spB_S (cs : List Char) :
    replGo 'S' ['p', 'O', ' ', '2'] "SpO2".data ['S'] ['p', 'O', ' ', '2'] ('S' :: cs) =
    'S' :: replGo 'S' ['p', 'O', ' ', '2'] "SpO2".data ['S'] ['p', 'O', ' ', '2'] cs := rfl

theorem spB_other {c : Char} (h1 : c ≠ 'p') (h2 : c ≠ 'S') (cs : List Char) :
    replGo 'S' ['p', 'O', ' ', '2'] "SpO2".data ['S'] ['p', 'O', ' ', '2'] (c :: cs) =
    'S' :: c :: replGo 'S' ['p', 'O', ' ', '2'] "SpO2".data [] ['S', 'p', 'O', ' ', '2'] cs := by
  rw [replGo_cons, if_neg h1, if_neg h2]
  rfl

theorem spC_O (cs : List Char) :
    replGo 'S' ['p', 'O', ' ', '2'] "SpO2".data ['p', 'S'] ['O', ' ', '2'] ('O' :: cs) =
    replGo 'S' ['p', 'O', ' ', '2'] "SpO2".data ['O', 'p', 'S'] [' ', '2'] cs := rfl

theorem spC_S (cs : List Char) :
    replGo 'S' ['p', 'O', ' ', '2'] "SpO2".data ['p', 'S'] ['O', ' ', '2'] ('S' :: cs) =
    'S' :: 'p' :: replGo 'S' ['p', 'O', ' ', '2'] "SpO2".data ['S'] ['p', 'O', ' ', '2'] cs := rfl

theorem spC_other {c : Char} (h1 : c ≠ 'O') (h2 : c ≠ 'S') (cs : List Char) :
    replGo 'S' ['p', 'O', ' ', '2'] "SpO2".data ['p', 'S'] ['O', ' ', '2'] (c :: cs) =
    'S' :: 'p' :: c ::
      replGo 'S' ['p', 'O', ' ', '2'] "SpO2".data [] ['S', 'p', 'O', ' ', '2'] cs := by
  rw [replGo_cons, if_neg h1, if_neg h2]
  rfl

theorem spD_sp (cs : List Char) :
    replGo 'S' ['p', 'O', ' ', '2'] "SpO2".data ['O', 'p', 'S'] [' ', '2'] (' ' :: cs) =
    replGo 'S' ['p', 'O', ' ', '2'] "SpO2".data [' ', 'O', 'p', 'S'] ['2'] cs := rfl

theorem spD_S (cs : List Char) :
    replGo 'S' ['p', 'O', ' ', '2'] "SpO2".data ['O', 'p', 'S'] [' ', '2'] ('S' :: cs) =
    'S' :: 'p' :: 'O' ::
      replGo 'S' ['p', 'O', ' ', '2'] "SpO2".data ['S'] ['p', 'O', ' ', '2'] cs := rfl

theorem spD_other {c : Char} (h1 : c ≠ ' ') (h2 : c ≠ 'S') (cs : List Char) :
    replGo 'S' ['p', 'O', ' ', '2'] "SpO2".data ['O', 'p', 'S'] [' ', '2'] (c :: cs) =
    'S' :: 'p' :: 'O' :: c ::
      replGo 'S' ['p', 'O', ' ', '2'] "SpO2".data [] ['S', 'p', 'O', ' ', '2'] cs := by
  rw [replGo_cons, if_neg h1, if_neg h2]
  rfl

theorem spE_two (cs : List Char) :
    replGo 'S' ['p', 'O', ' ', '2'] "SpO2".data [' ', 'O', 'p', 'S'] ['2'] ('2' :: cs) =
    'S' :: 'p' :: 'O' :: '2' ::
      replGo 'S' ['p', 'O', ' ', '2'] "SpO2".data [] ['S', 'p', 'O', ' ', '2'] cs := rfl

theorem spE_S (cs : List Char) :
    replGo 'S' ['p', 'O', ' ', '2'] "SpO2".data [' ', 'O', 'p', 'S'] ['2'] ('S' :: cs) =
    'S' :: 'p' :: 'O' :: ' ' ::
      replGo 'S' ['p', 'O', ' ', '2'] "SpO2".data ['S'] ['p', 'O', ' ', '2'] cs := rfl

theorem spE_other {c : Char} (h1 : c ≠ '2') (h2 : c ≠ 'S') (cs : List Char) :
    replGo 'S' ['p', 'O', ' ', '2'] "SpO2".data [' ', 'O', 'p', 'S'] ['2'] (c :: cs) =
    'S' :: 'p' :: 'O' :: ' ' :: c ::
      replGo 'S' ['p', 'O', ' ', '2'] "SpO2".data [] ['S', 'p', 'O', ' ', '2'] cs := by
  rw [replGo_cons, if_neg h1, if_neg h2]
  rfl

theorem replSpO2_del1 (l : List Char) : Del1 chO ' ' chTwo l (replSpO2 l) := by
  have H : ∀ l : List Char,
      Del1 chO ' ' chTwo l
        (replGo 'S' ['p', 'O', ' ', '2'] "SpO2".data [] ['S', 'p', 'O', ' ', '2'] l) ∧
      Del1 chO ' ' chTwo ('S' :: l)
        (replGo 'S' ['p', 'O', ' ', '2'] "SpO2".data ['S'] ['p', 'O', ' ', '2'] l) ∧
      Del1 chO ' ' chTwo ('S' :: 'p' :: l)
        (replGo 'S' ['p', 'O', ' ', '2'] "SpO2".data ['p', 'S'] ['O', ' ', '2'] l) ∧
      Del1 chO ' ' chTwo ('S' :: 'p' :: 'O' :: l)
        (replGo 'S' ['p', 'O', ' ', '2'] "SpO2".data ['O', 'p', 'S'] [' ', '2'] l) ∧
      Del1 chO ' ' chTwo ('S' :: 'p' :: 'O' :: ' ' :: l)
        (replGo 'S' ['p', 'O', ' ', '2'] "SpO2".data [' ', 'O', 'p', 'S'] ['2'] l) := by
    intro l
    induction l with
    | nil =>
      refine ⟨?_, ?_, ?_, ?_, ?_⟩ <;> rw [replGo_nil] <;> exact del1_refl _
    | cons c cs ih =>
      obtain ⟨ihA, ihB, ihC, ihD, ihE⟩ := ih
      refine ⟨?_, ?_, ?_, ?_, ?_⟩
      · by_cases hc : c = 'S'
        · subst hc; rw [spA_S]; exact ihB
        · rw [spA_other hc]; exact .keep c ihA
      · by_cases hc : c = 'p'
        · subst hc; rw [spB_p]; exact ihC
        · by_cases hc2 : c = 'S'
          · subst hc2; rw [spB_S]; exact .keep 'S' ihB
          · rw [spB_other hc hc2]; exact .keep 'S' (.keep c ihA)
      · by_cases hc : c = 'O'
        · subst hc; rw [spC_O]; exact ihD
        · by_cases hc2 : c = 'S'
          · subst hc2; rw [spC_S]; exact .keep 'S' (.keep 'p' ihB)
          · rw [spC_other hc hc2]; exact .keep 'S' (.keep 'p' (.keep c ihA))
      · by_cases hc : c = ' '
        · subst hc; rw [spD_sp]; exact ihE
        · by_cases hc2 : c = 'S'
          · subst hc2; rw [spD_S]; exact .keep 'S' (.keep 'p' (.keep 'O' ihB))
          · rw [spD_other hc hc2]; exact .keep 'S' (.keep 'p' (.keep 'O' (.keep c ihA)))
      · by_cases hc : c = '2'
        · subst hc
          rw [spE_two]
          exact .keep 'S' (.keep 'p' (.del 'O' '2' (by decide) (by decide) ihA))
        · by_cases hc2 : c = 'S'
          · subst hc2
            rw [spE_S]
            exact .keep 'S' (.keep 'p' (.keep 'O' (.keep ' ' ihB)))
          · rw [spE_other hc hc2]
            exact .keep 'S' (.keep 'p' (.keep 'O' (.keep ' ' (.keep c ihA))))
  exact (H l).1

theorem replGo_id (p0 : Char) (pt rep : List Char) :
    ∀ (l pend rest : List Char),
    pend.reverse ++ rest = p0 :: pt →
    hasOcc (p0 :: pt) (pend.reverse ++ l) = false →
    replGo p0 pt rep pend rest l = pend.reverse ++ l := by
  intro l
  induction l with
  | nil =>
    intro pend rest hinv hno
    rw [replGo_nil]
    simp
  | cons c cs ih =>
    intro pend rest hinv hno
    cases rest with
    | nil =>
      exfalso
      rw [List.append_nil] at hinv
      rw [hinv] at hno
      have hocc : hasOcc (p0 :: pt) ((p0 :: pt) ++ (c :: cs)) = true :=
        hasOcc_of_pfx (by simp) (pfxB_append_self _ _)
      rw [hocc] at hno
      cases hno
    | cons r rs =>
      rw [replGo_cons]
      by_cases hcr : c = r
      · cases rs with
        | nil =>
          exfalso
          subst hcr
          have hsplit : pend.reverse ++ (c :: cs) = (p0 :: pt) ++ cs := by
            rw [← hinv, List.append_assoc]
            rfl
          have hocc : hasOcc (p0 :: pt) (pend.reverse ++ (c :: cs)) = true := by
            rw [hsplit]
            exact hasOcc_of_pfx (by simp) (pfxB_append_self _ _)
          rw [hocc] at hno
          cases hno
        | cons r2 rs2 =>
          rw [if_pos hcr]
          subst hcr
          show replGo p0 pt rep (c :: pend) (r2 :: rs2) cs = pend.reverse ++ c :: cs
          have hinv' : (c :: pend).reverse ++ (r2 :: rs2) = p0 :: pt := by
            rw [List.reverse_cons, List.append_assoc]
            simpa using hinv
          have hno' : hasOcc (p0 :: pt) ((c :: pend).reverse ++ cs) = false := by
            rw [List.reverse_cons, List.append_assoc]
            simpa using hno
          rw [ih (c :: pend) (r2 :: rs2) hinv' hno']
          rw [List.reverse_cons, List.append_assoc]
          rfl
      · rw [if_neg hcr]
        by_cases hcp : c = p0
        · subst hcp
          rw [if_pos rfl]
          have hno' : hasOcc (c :: pt) (([c] : List Char).reverse ++ cs) = false := by
            cases hx : hasOcc (c :: pt) (c :: cs) with
            | false => simpa using hx
            | true =>
              exfalso
              have hall := hasOcc_append_left hx pend.reverse
              rw [hall] at hno
              cases hno
          have hinv' : ([c] : List Char).reverse ++ pt = c :: pt := by simp
          rw [ih [c] pt hinv' hno']
          simp
        · rw [if_neg hcp]
          have hno' : hasOcc (p0 :: pt) (([] : List Char).reverse ++ cs) = false := by
            cases hx : hasOcc (p0 :: pt) cs with
            | false => simpa using hx
            | true =>
              exfalso
              have h2 : hasOcc (p0 :: pt) (c :: cs) = true := hasOcc_cons_of hx
              have h3 := hasOcc_append_left h2 pend.reverse
              rw [h3] at hno
              cases hno
          have hinv' : ([] : List Char).reverse ++ (p0 :: pt) = p0 :: pt := by simp
          rw [ih [] (p0 :: pt) hinv' hno']
          simp

theorem replO2_id {l : List Char} (h : hasO2 l = false) : replO2 l = l := by
  unfold replO2
  have hid := replGo_id 'O' [' ', '2'] "O2".data l [] "O 2".data rfl h
  simpa using hid

theorem replSpO2_id {l : List Char} (h : hasSpO2 l = false) : replSpO2 l = l := by
  unfold replSpO2
  have hid := replGo_id 'S' ['p', 'O', ' ', '2'] "SpO2".data l [] "SpO 2".data rfl h
  simpa using hid

theorem go3_base_nil (pw : Bool) : go3 (.base pw) [] = [] := rfl

theorem go3_base_cons (pw : Bool) (c : Char) (cs : List Char) :
    go3 (.base pw) (c :: cs) =
      if !pw && isAlphaC c then go3 (.run [c]) cs
      else c :: go3 (.base (isWordC c)) cs := rfl

theorem go3_run_nil (acc : List Char) : go3 (.run acc) [] = acc.reverse := rfl

theorem go3_run_cons (acc : List Char) (c : Char) (cs : List Char) :
    go3 (.run acc) (c :: cs) =
      if isAlphaC c then go3 (.run (c :: acc)) cs
      else if c = '.' then go3 (.dot acc) cs
      else acc.reverse ++ c :: go3 (.base (isWordC c)) cs := rfl

theorem go3_dot_nil (acc : List Char) : go3 (.dot acc) [] = acc.reverse ++ ['.'] := rfl

theorem go3_dot_cons (acc : List Char) (c : Char) (cs : List Char) :
    go3 (.dot acc) (c :: cs) =
      if isWsC c then acc.reverse ++ ' ' :: go3 (.base false) cs
      else if isAlphaC c then acc.reverse ++ '.' :: go3 (.run [c]) cs
      else acc.reverse ++ '.' :: c :: go3 (.base (isWordC c)) cs := rfl

theorem wsSp_cons {c : Char} {cs : List Char} (h : wsSp (c :: cs) = true) :
    (isWsC c = true → c = ' ') ∧ wsSp cs = true := by
  have h' : ((!isWsC c || decide (c = ' ')) &&
      cs.all fun x => !isWsC x || decide (x = ' ')) = true := h
  simp only [Bool.and_eq_true, Bool.or_eq_true, Bool.not_eq_true',
    decide_eq_true_eq] at h'
  refine ⟨fun hw => ?_, h'.2⟩
  rcases h'.1 with h1 | h1
  · rw [hw] at h1; cases h1
  · exact h1

theorem step3_del1 {v : List Char} (hsp : wsSp v = true) :
    Del1 isAlphaC '.' isWsC v (step3 v) := by
  have H : ∀ n (v : List Char), v.length ≤ n → wsSp v = true →
      (∀ pw, Del1 isAlphaC '.' isWsC v (go3 (.base pw) v)) ∧
      (∀ acc, acc ≠ [] → (∀ c ∈ acc, isAlphaC c = true) →
        Del1 isAlphaC '.' isWsC (acc.reverse ++ v) (go3 (.run acc) v)) ∧
      (∀ acc, acc ≠ [] → (∀ c ∈ acc, isAlphaC c = true) →
        Del1 isAlphaC '.' isWsC (acc.reverse ++ ('.' :: v)) (go3 (.dot acc) v)) := by
    intro n
    induction n with
    | zero =>
      intro v hlen hsp
      have hv : v = [] := List.eq_nil_of_length_eq_zero (Nat.le_zero.mp hlen)
      subst hv
      refine ⟨fun pw => ?_, fun acc hne ha => ?_, fun acc hne ha => ?_⟩
      · rw [go3_base_nil]; exact .nil
      · rw [go3_run_nil, List.append_nil]; exact del1_refl _
      · rw [go3_dot_nil]; exact del1_refl _
    | succ n ih =>
      intro v hlen hsp
      match v with
      | [] =>
        refine ⟨fun pw => ?_, fun acc hne ha => ?_, fun acc hne ha => ?_⟩
        · rw [go3_base_nil]; exact .nil
        · rw [go3_run_nil, List.append_nil]; exact del1_refl _
        · rw [go3_dot_nil]; exact del1_refl _
      | c :: cs =>
        obtain ⟨hspc, hsps⟩ := wsSp_cons hsp
        have hlen' : cs.length ≤ n := by
          simp only [List.length_cons] at hlen
          omega
        obtain ⟨ihB, ihR, ihD⟩ := ih cs hlen' hsps
        refine ⟨fun pw => ?_, fun acc hne ha => ?_, fun acc hne ha => ?_⟩
        · rw [go3_base_cons]
          cases hb : (!pw && isAlphaC c) with
          | true =>
            rw [if_pos rfl]
            have halc : isAlphaC c = true := by
              simp only [Bool.and_eq_true] at hb
              exact hb.2
            have hrun := ihR [c] (by simp) (by simpa using halc)
            simpa using hrun
          | false =>
            rw [if_neg Bool.false_ne_true]
            exact .keep c (ihB (isWordC c))
        · rw [go3_run_cons]
          cases hal : isAlphaC c with
          | true =>
            rw [if_pos rfl]
            have hmem : ∀ x ∈ (c :: acc), isAlphaC x = true := by
              intro x hx
              rcases List.mem_cons.mp hx with rfl | hx2
              · exact hal
              · exact ha x hx2
            have hrun := ihR (c :: acc) (by simp) hmem
            rw [List.reverse_cons, List.append_assoc] at hrun
            simpa using hrun
          | false =>
            rw [if_neg Bool.false_ne_true]
            by_cases hd : c = '.'
            · subst hd
              rw [if_pos rfl]
              exact ihD acc hne ha
            · rw [if_neg hd]
              exact del1_append_left (.keep c (ihB (isWordC c))) acc.reverse
        · rw [go3_dot_cons]
          cases hw : isWsC c with
          | true =>
            rw [if_pos rfl]
            have hcsp : c = ' ' := hspc hw
            subst hcsp
            obtain ⟨a, acc', rfl⟩ : ∃ a acc', acc = a :: acc' := by
              cases acc with
              | nil => exact absurd rfl hne
              | cons a acc' => exact ⟨a, acc', rfl⟩
            have hdel : Del1 isAlphaC '.' isWsC (a :: '.' :: ' ' :: cs)
                (a :: ' ' :: go3 (.base false) cs) :=
              .del a ' ' (ha a (by simp)) (by decide) (ihB false)
            have hall := del1_append_left hdel acc'.reverse
            rw [List.reverse_cons, List.append_assoc, List.append_assoc]
            simpa using hall
          | false =>
            rw [if_neg Bool.false_ne_true]
            cases hal : isAlphaC c with
            | true =>
              rw [if_pos rfl]
              have hrun := ihR [c] (by simp) (by simpa using hal)
              have hall := del1_append_left (.keep '.' hrun) acc.reverse
              simpa using hall
            | false =>
              rw [if_neg Bool.false_ne_true]
              have hall := del1_append_left
                (.keep '.' (.keep c (ihB (isWordC c)))) acc.reverse
              simpa using hall
  exact (H v.length v le_rfl hsp).1 false

theorem dot_not_word : isWordC '.' = false := by decide

theorem sp_not_word : isWordC ' ' = false := by decide

theorem rcM3_alpha_append {u : List Char} : ∀ w : List Char,
    (∀ c ∈ w, isAlphaC c = true) → rcM3 (w ++ u) = rcM3 u := by
  intro w
  induction w with
  | nil => intro _; rfl
  | cons c cs ih =>
    intro hw
    rw [List.cons_append, rcM3_alpha_cons (hw c (by simp))]
    exact ih (fun x hx => hw x (by simp [hx]))

theorem noM3_true_alpha_append {u : List Char} (hu : noM3 true u = true) :
    ∀ w : List Char, (∀ c ∈ w, isAlphaC c = true) → noM3 true (w ++ u) = true := by
  intro w
  induction w with
  | nil => exact fun _ => hu
  | cons c cs ih =>
    intro hw
    rw [List.cons_append, noM3_cons]
    simp only [Bool.and_eq_true]
    refine ⟨by simp, ?_⟩
    rw [alpha_word (hw c (by simp))]
    exact ih (fun x hx => hw x (by simp [hx]))

theorem noM3_false_alpha_append {u : List Char} (hrc : rcM3 u = false)
    (hu : noM3 true u = true) :
    ∀ w : List Char, (∀ c ∈ w, isAlphaC c = true) → noM3 false (w ++ u) = true := by
  intro w
  induction w with
  | nil =>
    intro _
    show noM3 false u = true
    cases u with
    | nil => rfl
    | cons c cs =>
      rw [noM3_cons] at hu ⊢
      simp only [Bool.and_eq_true] at hu ⊢
      refine ⟨?_, hu.2⟩
      cases hal : isAlphaC c with
      | true =>
        rw [rcM3_alpha_cons hal] at hrc
        rw [tryM3_cons]
        simp [hrc]
      | false =>
        rw [tryM3_cons]
        simp [hal]
  | cons a w' ih =>
    intro hw
    rw [List.cons_append, noM3_cons]
    simp only [Bool.and_eq_true]
    constructor
    · rw [tryM3_cons]
      have hrc2 : rcM3 (w' ++ u) = false := by
        rw [rcM3_alpha_append w' (fun x hx => hw x (by simp [hx]))]
        exact hrc
      simp [hrc2]
    · rw [alpha_word (hw a (by simp))]
      exact noM3_true_alpha_append hu w' (fun x hx => hw x (by simp [hx]))

theorem step3_noM3 (v : List Char) : noM3 false (step3 v) = true := by
  have H : ∀ n (v : List Char), v.length ≤ n →
      (∀ pw, noM3 pw (go3 (.base pw) v) = true) ∧
      (∀ acc, acc ≠ [] → (∀ c ∈ acc, isAlphaC c = true) →
        noM3 false (go3 (.run acc) v) = true ∧
        ∃ u, go3 (.run acc) v = acc.reverse ++ u) ∧
      (∀ acc, acc ≠ [] → (∀ c ∈ acc, isAlphaC c = true) →
        noM3 false (go3 (.dot acc) v) = true ∧
        ∃ u, go3 (.dot acc) v = acc.reverse ++ u) := by
    intro n
    induction n with
    | zero =>
      intro v hlen
      have hv : v = [] := List.eq_nil_of_length_eq_zero (Nat.le_zero.mp hlen)
      subst hv
      refine ⟨fun pw => rfl, fun acc hne ha => ?_, fun acc hne ha => ?_⟩
      · rw [go3_run_nil]
        refine ⟨?_, [], List.append_nil _ |>.symm⟩
        have h0 : noM3 false (acc.reverse ++ ([] : List Char)) = true :=
          @noM3_false_alpha_append [] rfl rfl acc.reverse
            (fun x hx => ha x (List.mem_reverse.mp hx))
        simpa using h0
      · rw [go3_dot_nil]
        refine ⟨?_, ['.'], rfl⟩
        exact noM3_false_alpha_append (by decide) (by decide) acc.reverse
          (fun x hx => ha x (List.mem_reverse.mp hx))
    | succ n ih =>
      intro v hlen
      match v with
      | [] =>
        refine ⟨fun pw => rfl, fun acc hne ha => ?_, fun acc hne ha => ?_⟩
        · rw [go3_run_nil]
          refine ⟨?_, [], List.append_nil _ |>.symm⟩
          have h0 : noM3 false (acc.reverse ++ ([] : List Char)) = true :=
            @noM3_false_alpha_append [] rfl rfl acc.reverse
              (fun x hx => ha x (List.mem_reverse.mp hx))
          simpa using h0
        · rw [go3_dot_nil]
          refine ⟨?_, ['.'], rfl⟩
          exact noM3_false_alpha_append (by decide) (by decide) acc.reverse
            (fun x hx => ha x (List.mem_reverse.mp hx))
      | c :: cs =>
        have hlen' : cs.length ≤ n := by
          simp only [List.length_cons] at hlen
          omega
        obtain ⟨ihB, ihR, ihD⟩ := ih cs hlen'
        refine ⟨fun pw => ?_, fun acc hne ha => ?_, fun acc hne ha => ?_⟩
        · rw [go3_base_cons]
          cases hb : (!pw && isAlphaC c) with
          | true =>
            rw [if_pos rfl]
            simp only [Bool.and_eq_true, Bool.not_eq_true'] at hb
            obtain ⟨hpw, hac⟩ := hb
            subst hpw
            exact (ihR [c] (by simp) (by simpa using hac)).1
          | false =>
            rw [if_neg Bool.false_ne_true]
            rw [noM3_cons]
            simp only [Bool.and_eq_true]
            refine ⟨?_, ihB (isWordC c)⟩
            rcases Bool.and_eq_false_iff.mp hb with h1 | h1
            · have hpw : pw = true := by simpa using h1
              simp [hpw]
            · rw [tryM3_cons]
              simp [h1]
        · rw [go3_run_cons]
          cases hal : isAlphaC c with
          | true =>
            rw [if_pos rfl]
            have hmem : ∀ x ∈ (c :: acc), isAlphaC x = true := by
              intro x hx
              rcases List.mem_cons.mp hx with rfl | hx2
              · exact hal
              · exact ha x hx2
            obtain ⟨hno, u, hu⟩ := ihR (c :: acc) (by simp) hmem
            refine ⟨hno, c :: u, ?_⟩
            rw [hu, List.reverse_cons, List.append_assoc]
            simp
          | false =>
            rw [if_neg Bool.false_ne_true]
            by_cases hd : c = '.'
            · subst hd
              rw [if_pos rfl]
              exact ihD acc hne ha
            · rw [if_neg hd]
              refine ⟨?_, c :: go3 (.base (isWordC c)) cs, rfl⟩
              have hrc : rcM3 (c :: go3 (.base (isWordC c)) cs) = false :=
                rcM3_cons_other hal hd
              have hnm : noM3 true (c :: go3 (.base (isWordC c)) cs) = true := by
                rw [noM3_cons]
                simp only [Bool.and_eq_true]
                exact ⟨by simp, ihB (isWordC c)⟩
              exact noM3_false_alpha_append hrc hnm acc.reverse
                (fun x hx => ha x (List.mem_reverse.mp hx))
        · rw [go3_dot_cons]
          cases hw2 : isWsC c with
          | true =>
            rw [if_pos rfl]
            refine ⟨?_, ' ' :: go3 (.base false) cs, rfl⟩
            have hrc : rcM3 (' ' :: go3 (.base false) cs) = false :=
              rcM3_cons_other (by decide) (by decide)
            have hnm : noM3 true (' ' :: go3 (.base false) cs) = true := by
              rw [noM3_cons]
              simp only [Bool.and_eq_true]
              refine ⟨by simp, ?_⟩
              rw [sp_not_word]
              exact ihB false
            exact noM3_false_alpha_append hrc hnm acc.reverse
              (fun x hx => ha x (List.mem_reverse.mp hx))
          | false =>
            rw [if_neg Bool.false_ne_true]
            cases hal : isAlphaC c with
            | true =>
              rw [if_pos rfl]
              obtain ⟨hno, u, hu⟩ := ihR [c] (by simp) (by simpa using hal)
              refine ⟨?_, '.' :: go3 (.run [c]) cs, rfl⟩
              have hu' : go3 (.run [c]) cs = c :: u := by simpa using hu
              have hrc : rcM3 ('.' :: go3 (.run [c]) cs) = false := by
                rw [hu', rcM3_cons_dot]
                exact alpha_not_ws hal
              have hnm : noM3 true ('.' :: go3 (.run [c]) cs) = true := by
                rw [noM3_cons]
                simp only [Bool.and_eq_true]
                refine ⟨by simp, ?_⟩
                rw [dot_not_word]
                exact hno
              exact noM3_false_alpha_append hrc hnm acc.reverse
                (fun x hx => ha x (List.mem_reverse.mp hx))
            | false =>
              rw [if_neg Bool.false_ne_true]
              refine ⟨?_, '.' :: c :: go3 (.base (isWordC c)) cs, rfl⟩
              have hrc : rcM3 ('.' :: c :: go3 (.base (isWordC c)) cs) = false := by
                rw [rcM3_cons_dot]
                exact hw2
              have hnm : noM3 true ('.' :: c :: go3 (.base (isWordC c)) cs) = true := by
                rw [noM3_cons]
                simp only [Bool.and_eq_true]
                refine ⟨by simp, ?_⟩
                rw [dot_not_word, noM3_cons]
                simp only [Bool.and_eq_true]
                refine ⟨?_, ihB (isWordC c)⟩
                rw [tryM3_cons]
                simp [hal]
              exact noM3_false_alpha_append hrc hnm acc.reverse
                (fun x hx => ha x (List.mem_reverse.mp hx))
  exact (H v.length v le_rfl).1 false

theorem step3_id {v : List Char} (h : noM3 false v = true) : step3 v = v := by
  have H : ∀ n (v : List Char), v.length ≤ n →
      (∀ pw, noM3 pw v = true → go3 (.base pw) v = v) ∧
      (∀ acc, rcM3 v = false → noM3 true v = true →
        go3 (.run acc) v = acc.reverse ++ v) ∧
      (∀ acc, (∀ x xs, v = x :: xs → isWsC x = false) → noM3 false v = true →
        go3 (.dot acc) v = acc.reverse ++ ('.' :: v)) := by
    intro n
    induction n with
    | zero =>
      intro v hlen
      have hv : v = [] := List.eq_nil_of_length_eq_zero (Nat.le_zero.mp hlen)
      subst hv
      refine ⟨fun pw _ => rfl, fun acc _ _ => ?_, fun acc _ _ => rfl⟩
      rw [go3_run_nil, List.append_nil]
    | succ n ih =>
      intro v hlen
      match v with
      | [] =>
        refine ⟨fun pw _ => rfl, fun acc _ _ => ?_, fun acc _ _ => rfl⟩
        rw [go3_run_nil, List.append_nil]
      | c :: cs =>
        have hlen' : cs.length ≤ n := by
          simp only [List.length_cons] at hlen
          omega
        obtain ⟨ihB, ihR, ihD⟩ := ih cs hlen'
        refine ⟨fun pw h0 => ?_, fun acc hrc hno => ?_, fun acc hhd h0 => ?_⟩
        · rw [go3_base_cons]
          rw [noM3_cons] at h0
          simp only [Bool.and_eq_true] at h0
          cases hb : (!pw && isAlphaC c) with
          | true =>
            rw [if_pos rfl]
            simp only [Bool.and_eq_true, Bool.not_eq_true'] at hb
            obtain ⟨hpw, hac⟩ := hb
            subst hpw
            have h1 := h0.1
            simp only [Bool.false_or, Bool.not_eq_true'] at h1
            rw [tryM3_cons] at h1
            simp only [hac, Bool.true_and] at h1
            have h2 := h0.2
            rw [alpha_word hac] at h2
            have := ihR [c] h1 h2
            simpa using this
          | false =>
            rw [if_neg Bool.false_ne_true]
            rw [ihB (isWordC c) h0.2]
        · rw [go3_run_cons]
          rw [noM3_cons] at hno
          simp only [Bool.and_eq_true] at hno
          cases hal : isAlphaC c with
          | true =>
            rw [if_pos rfl]
            rw [rcM3_alpha_cons hal] at hrc
            have h2 := hno.2
            rw [alpha_word hal] at h2
            rw [ihR (c :: acc) hrc h2, List.reverse_cons, List.append_assoc]
            simp
          | false =>
            rw [if_neg Bool.false_ne_true]
            by_cases hd : c = '.'
            · subst hd
              rw [if_pos rfl]
              have hhd : ∀ x xs, cs = x :: xs → isWsC x = false := by
                intro x xs hxx
                rw [hxx, rcM3_cons_dot] at hrc
                exact hrc
              have h2 := hno.2
              rw [dot_not_word] at h2
              exact ihD acc hhd h2
            · rw [if_neg hd]
              rw [ihB (isWordC c) hno.2]
        · rw [go3_dot_cons]
          have hxw : isWsC c = false := hhd c cs rfl
          rw [if_neg (bool_false_not hxw)]
          rw [noM3_cons] at h0
          simp only [Bool.and_eq_true] at h0
          cases hal : isAlphaC c with
          | true =>
            rw [if_pos rfl]
            have h1 := h0.1
            simp only [Bool.false_or, Bool.not_eq_true'] at h1
            rw [tryM3_cons] at h1
            simp only [hal, Bool.true_and] at h1
            have h2 := h0.2
            rw [alpha_word hal] at h2
            rw [ihR [c] h1 h2]
            simp
          | false =>
            rw [if_neg Bool.false_ne_true]
            rw [ihB (isWordC c) h0.2]
  exact H v.length v le_rfl |>.1 false h

theorem normalize_strip_fix (l : List Char) :
    stripWs (replO2 (replSpO2 (step3 (step2 (step1
      (stripWs (replO2 (replSpO2 (step3 (step2 (step1 l))))))))))) =
    stripWs (replO2 (replSpO2 (step3 (step2 (step1 l))))) := by
  have hW1 : wsOkB false (step1 l) = true := collapseWs_wsOk l false
  have hF2 : Fix2I (step2 (step1 l)) := fix2_step2 (step1 l)
  have hW2 : wsOkB false (step2 (step1 l)) = true := step2_wsOk _ false hW1
  have hsp2 : wsSp (step2 (step1 l)) = true := wsOk_wsSp _ false hW2
  have hD3 : Del1 isAlphaC '.' isWsC (step2 (step1 l)) (step3 (step2 (step1 l))) :=
    step3_del1 hsp2
  have hlA : ∀ x : Char, isAlphaC x = true →
      isWsC x = false ∧ isDigitC x = false ∧ x ≠ '.' :=
    fun x hx => ⟨alpha_not_ws hx, alpha_not_digit hx, alpha_ne_dot hx⟩
  have hF3 : Fix2I (step3 (step2 (step1 l))) := fix2_del1 hlA dot_not_digit hD3 hF2
  have hW3 : wsOkB false (step3 (step2 (step1 l))) = true :=
    wsOk_del1 (fun x hx => alpha_not_ws hx) hD3 false hW2
  have hN3 : noM3 false (step3 (step2 (step1 l))) = true := step3_noM3 _
  have hlO : ∀ x : Char, chO x = true →
      isWsC x = false ∧ isDigitC x = false ∧ x ≠ '.' := by
    intro x hx
    have hxO : x = 'O' := by simpa [chO] using hx
    subst hxO
    exact ⟨by decide, by decide, by decide⟩
  have hg2 : ∀ x : Char, chTwo x = true →
      isAlphaC x = false ∧ x ≠ '.' ∧ isWsC x = false := by
    intro x hx
    have hx2 : x = '2' := by simpa [chTwo] using hx
    subst hx2
    exact ⟨by decide, by decide, by decide⟩
  have hD4 := replSpO2_del1 (step3 (step2 (step1 l)))
  have hF4 : Fix2I (replSpO2 (step3 (step2 (step1 l)))) :=
    fix2_del1 hlO (by decide) hD4 hF3
  have hW4 : wsOkB false (replSpO2 (step3 (step2 (step1 l)))) = true :=
    wsOk_del1 (fun x hx => (hlO x hx).1) hD4 false hW3
  have hN4 : noM3 false (replSpO2 (step3 (step2 (step1 l)))) = true :=
    noM3_del1 hg2 hD4 false hN3
  have hD5 := replO2_del1 (replSpO2 (step3 (step2 (step1 l))))
  have hF5 : Fix2I (replO2 (replSpO2 (step3 (step2 (step1 l))))) :=
    fix2_del1 hlO (by decide) hD5 hF4
  have hW5 : wsOkB false (replO2 (replSpO2 (step3 (step2 (step1 l))))) = true :=
    wsOk_del1 (fun x hx => (hlO x hx).1) hD5 false hW4
  have hN5 : noM3 false (replO2 (replSpO2 (step3 (step2 (step1 l))))) = true :=
    noM3_del1 hg2 hD5 false hN4
  have hO5 : hasO2 (replO2 (replSpO2 (step3 (step2 (step1 l))))) = false :=
    replO2_noO2 _
  obtain ⟨w1, w2, hdec, hw1, hw2⟩ :=
    stripWs_decomp (replO2 (replSpO2 (step3 (step2 (step1 l)))))
  rw [hdec] at hW5 hN5 hF5
  obtain ⟨q, hq⟩ := wsOk_append_exists w1 false hW5
  have hqt : wsOkB q (stripWs (replO2 (replSpO2 (step3 (step2 (step1 l)))))) = true :=
    wsOk_take _ q hq
  have hWt : wsOkB false (stripWs (replO2 (replSpO2 (step3 (step2 (step1 l)))))) = true := by
    rcases stripWs_head (replO2 (replSpO2 (step3 (step2 (step1 l))))) with hnil | ⟨c, t', heq, hcw⟩
    · rw [hnil]; rfl
    · rw [heq] at hqt ⊢
      exact wsOk_flag_nws hcw hqt
  have hsplit := noM3_append_elim w1 false hN5
  rw [pwA_nonword w1 (fun c hc => ws_not_word (hw1 c hc))] at hsplit
  have hNt : noM3 false (stripWs (replO2 (replSpO2 (step3 (step2 (step1 l)))))) = true :=
    noM3_take _ false hsplit
  have hFt : Fix2I (stripWs (replO2 (replSpO2 (step3 (step2 (step1 l)))))) :=
    fix2_split (fix2_drop_ws w1 hw1 hF5) _ w2 rfl hw2
  have hOt : hasO2 (stripWs (replO2 (replSpO2 (step3 (step2 (step1 l)))))) = false := by
    cases hx : hasO2 (stripWs (replO2 (replSpO2 (step3 (step2 (step1 l)))))) with
    | false => rfl
    | true =>
      exfalso
      have h1 : hasOcc "O 2".data
          (stripWs (replO2 (replSpO2 (step3 (step2 (step1 l))))) ++ w2) = true :=
        hasOcc_append_right _ w2 hx
      have h2 := hasOcc_append_left h1 w1
      unfold hasO2 at hO5
      rw [hdec, h2] at hO5
      cases hO5
  have hSt : hasSpO2 (stripWs (replO2 (replSpO2 (step3 (step2 (step1 l)))))) = false := by
    cases hx : hasSpO2 (stripWs (replO2 (replSpO2 (step3 (step2 (step1 l)))))) with
    | false => rfl
    | true =>
      rw [hasSpO2_hasO2 hx] at hOt
      cases hOt
  have h1 : step1 (stripWs (replO2 (replSpO2 (step3 (step2 (step1 l)))))) =
      stripWs (replO2 (replSpO2 (step3 (step2 (step1 l))))) := wsOk_id _ false hWt
  rw [h1, fix2_id hFt, step3_id hNt, replSpO2_id hSt, replO2_id hOt, stripWs_idem]

/-- C5: `normalize_text` is idempotent — for every input string, applying
`normalize_text` to its own output returns that output unchanged. -/
theorem normalize_idem (s : String) :
    normalize_text (normalize_text s) = normalize_text s := by
  have key := normalize_strip_fix s.data
  show String.mk (stripWs (replO2 (replSpO2 (step3 (step2 (step1
      (stripWs (replO2 (replSpO2 (step3 (step2 (step1 s.data)))))))))))) =
    String.mk (stripWs (replO2 (replSpO2 (step3 (step2 (step1 s.data))))))
  rw [key]

end ClinicalNLP
